import Mathlib

set_option maxRecDepth 100000

/-!
Verification of the EEPROM macro store implemented in
`src/firmware/lib/layout/eeprom-macro/atmega32u4.c`.

The development shallowly embeds the C code:
* EEPROM memory is a function `Mem = Nat → Nat` (address to byte value);
  `eeprom__write` / `eeprom__copy` are queued operations (`Op`), applied in
  FIFO order by `applyOps`.
* `uint8_t` arithmetic is `Nat` with explicit `% 256` where the C code can
  truncate (the `<<= 2` shifts).
* C loops whose termination depends on the well-formedness of the byte
  stream (`read_key_action`'s continuation loop, the record scans, and
  `compress`'s loops) take an explicit fuel argument; the theorems are
  stated for sufficiently large fuel, which corresponds to the C loops
  terminating.
-/

namespace EepromMacro

/-- EEPROM memory model: address to byte value. -/
def Mem : Type := Nat → Nat

/-- `#define TYPE_DELETED 0x00` -/
def TYPE_DELETED : Nat := 0x00

/-- `#define TYPE_VALID_MACRO 0x01` -/
def TYPE_VALID_MACRO : Nat := 0x01

/-- `#define TYPE_CONTINUED 0x02` -/
def TYPE_CONTINUED : Nat := 0x02

/-- `#define TYPE_END 0xFF` -/
def TYPE_END : Nat := 0xFF

/-- `#define EEMEM_MACROS_START (EEMEM_VERSION_END + 1)`: the macro area
starts 5 bytes after the start of the store's EEPROM block (2 bytes start
address, 2 bytes end address, 1 byte version). -/
def EEMEM_MACROS_START (eemem_start : Nat) : Nat := eemem_start + 5

/-- The C struct `key_action_t`.  `layer`, `row`, `column` are `uint8_t`,
embedded as `Nat` (the theorems carry explicit `< 256` bounds). -/
structure key_action_t where
  pressed : Bool
  layer : Nat
  row : Nat
  column : Nat
deriving DecidableEq, Repr

/-- A queued EEPROM operation: `eeprom__write(a, v)` or
`eeprom__copy(dest, src, len)`. -/
inductive Op where
  | wr (a v : Nat)
  | cp (dest src len : Nat)
deriving DecidableEq, Repr

/-- Apply one queued operation to memory.  A copy is modelled as a
block transplant (destination bytes take the source bytes of the memory
at application time); for the only use in this file, `dest < src`, where
a forward byte-by-byte copy agrees with this semantics. -/
def applyOp (m : Mem) : Op → Mem
  | Op.wr a v => fun x => if x = a then v else m x
  | Op.cp d s l => fun x => if d ≤ x ∧ x < d + l then m (s + (x - d)) else m x

/-- Apply a queue of operations in FIFO (enqueue) order. -/
def applyOps (m : Mem) (ops : List Op) : Mem := ops.foldl applyOp m

/-- `p` is a prefix of the operation queue `q`. -/
def Pre (p q : List Op) : Prop := ∃ r, p ++ r = q

/-! ## The event codec (`read_key_action` / `write_key_action`) -/

/-- The `while (byte >> 7)` loop of `read_key_action`: as long as the
continuation bit of the previously read byte is set, read another byte and
shift its 2-bit groups in.  The C code trusts the stream (it loops as long
as continuation bits appear), hence the fuel argument. -/
def rka_loop (m : Mem) : Nat → Nat → Nat → key_action_t → key_action_t
  | 0, _, _, k => k
  | fuel + 1, a, byte, k =>
    if byte >>> 7 = 0 then k
    else
      let b := m a
      rka_loop m fuel (a + 1) b
        { pressed := k.pressed
          layer := (k.layer * 4 % 256) ||| ((b >>> 4) &&& 3)
          row := (k.row * 4 % 256) ||| ((b >>> 2) &&& 3)
          column := (k.column * 4 % 256) ||| (b &&& 3) }

/-- `read_key_action(from)`: read the first byte (which seeds `pressed`
and the first 2-bit groups), then run the continuation loop. -/
def read_key_action (m : Mem) (a : Nat) (fuel : Nat) : key_action_t :=
  let byte := m a
  rka_loop m fuel (a + 1) byte
    { pressed := ((byte >>> 6) &&& 1) == 1
      layer := (byte >>> 4) &&& 3
      row := (byte >>> 2) &&& 3
      column := byte &&& 3 }

/-- `k.layer <<= 2; k.row <<= 2; k.column <<= 2` on `uint8_t` fields. -/
def ka_shift (k : key_action_t) : key_action_t :=
  { k with
    layer := k.layer * 4 % 256
    row := k.row * 4 % 256
    column := k.column * 4 % 256 }

/-- The skip loop of `write_key_action`:
`for (; i<3 && !((k.layer|k.row|k.column) & 0xC0); i++) { shifts }`.
The argument is the remaining number of allowed skips (`3 - i`); the result
is the number of performed skips together with the shifted fields. -/
def wka_skip (k : key_action_t) : Nat → Nat × key_action_t
  | 0 => (0, k)
  | n + 1 =>
    if (k.layer ||| k.row ||| k.column) &&& 0xC0 = 0 then
      let r := wka_skip (ka_shift k) n
      (r.1 + 1, r.2)
    else (0, k)

/-- The emit loop of `write_key_action` (`for (; i<4; i++)`), returning the
emitted bytes in order.  `byte6` is the running value of C's `byte` before
the `|`s (`k.pressed << 6` for the first byte, `1 << 6` afterwards); the
fuel is `4 - i`. -/
def wka_emit : Nat → key_action_t → Nat → Nat → List Nat
  | 0, _, _, _ => []
  | n + 1, k, byte6, i =>
    let b := byte6 ||| ((if i < 3 then 1 else 0) <<< 7)
                  ||| ((k.layer &&& 0xC0) >>> 2)
                  ||| ((k.row &&& 0xC0) >>> 4)
                  ||| ((k.column &&& 0xC0) >>> 6)
    b :: wka_emit n (ka_shift k) (1 <<< 6) (i + 1)

/-- The byte sequence emitted by a successful `write_key_action`. -/
def wka_bytes (k : key_action_t) : List Nat :=
  let s := wka_skip k 3
  wka_emit (4 - s.1) s.2 ((if k.pressed then 1 else 0) <<< 6) s.1

/-- Queued writes placing the byte list `bs` at consecutive addresses
starting at `to`. -/
def writesAt : Nat → List Nat → List Op
  | _, [] => []
  | dst, b :: bs => Op.wr dst b :: writesAt (dst + 1) bs

/-- `write_key_action(to, k)`: fails (returns no operations and count `0`)
when `to > EEMEM_END - 4`; otherwise enqueues the emitted bytes at `to` and
returns the number of bytes written (`4 - i` where `i` is the number of
skipped leading 2-bit groups). -/
def write_key_action (eemem_end : Nat) (dst : Nat) (k : key_action_t) :
    List Op × Nat :=
  if dst > eemem_end - 4 then ([], 0)
  else (writesAt dst (wka_bytes k), 4 - (wka_skip k 3).1)

/-! ## Record navigation -/

/-- `find_next_deleted(start)`: scan forward from `start`, advancing by
each record's length byte, until a `TYPE_DELETED` record (result: its
address) or the `TYPE_END` record (result: `0`).  Fuel bounds the number
of loop iterations (the C loop terminates on well-formed areas). -/
def find_next_deleted (m : Mem) : Nat → Nat → Nat
  | 0, _ => 0
  | fuel + 1, start =>
    if m start = TYPE_END then 0
    else if m start = TYPE_DELETED then start
    else find_next_deleted m fuel (start + m (start + 1))

/-- `find_next_nondeleted(start)`: scan forward from `start`, skipping
records whose type is `TYPE_DELETED` or `TYPE_CONTINUED`; the result is
the address of the first other record. -/
def find_next_nondeleted (m : Mem) : Nat → Nat → Nat
  | 0, start => start
  | fuel + 1, start =>
    if m start = TYPE_DELETED ∨ m start = TYPE_CONTINUED then
      find_next_nondeleted m fuel (start + m (start + 1))
    else start

/-- `find_key_action(k)`: linear scan from `cur` (the public entry starts
at `EEMEM_MACROS_START`).  Stops with `0` at the `TYPE_END` record; for a
`TYPE_VALID_MACRO` record whose decoded first key-action equals `k` in all
four fields, returns the record's address; otherwise advances by the
record's length byte.  `rfuel` is the fuel handed to `read_key_action`. -/
def find_key_action (m : Mem) (k : key_action_t) (rfuel : Nat) :
    Nat → Nat → Nat
  | 0, _ => 0
  | fuel + 1, cur =>
    if m cur = TYPE_END then 0
    else if m cur = TYPE_VALID_MACRO ∧ read_key_action m (cur + 2) rfuel = k
    then cur
    else find_key_action m k rfuel fuel (cur + m (cur + 1))

/-! ## Compaction (`compress`) -/

/-- The inner copy loop of `compress`:
`for (length = next-to_compress; length; length = next-to_compress)`,
capping each chunk at `UINT8_MAX` and enqueueing `eeprom__copy`.
Returns the queued copies and the final value of `to_overwrite`. -/
def copy_chunks : Nat → Nat → Nat → Nat → List Op × Nat
  | 0, to_overwrite, _, _ => ([], to_overwrite)
  | fuel + 1, to_overwrite, to_compress, next =>
    if next - to_compress = 0 then ([], to_overwrite)
    else
      let len := min (next - to_compress) 255
      let r := copy_chunks fuel (to_overwrite + len) (to_compress + len) next
      (Op.cp to_overwrite to_compress len :: r.1, r.2)

/-- The `while (next != new_end_macro)` loop of `compress`.  All scans read
the unmodified memory `m`: the C writes are queued and applied only after
`compress` returns.  `sfuel` is the scan fuel, the first argument the loop
fuel. -/
def compress_loop (m : Mem) ( new_end_macro sfuel : Nat) :
    Nat → Nat → Nat → List Op
  | 0, _, _ => []
  | fuel + 1, to_overwrite, next =>
    if next = new_end_macro then []
    else
      let to_compress := find_next_nondeleted m sfuel next
      let d := find_next_deleted m sfuel to_compress
      let next2 := if d = 0 then new_end_macro else d
      let ty := m to_compress
      let r := copy_chunks new_end_macro (to_overwrite + 1) (to_compress + 1)
        next2
      r.1 ++ (if next2 ≠ new_end_macro then [Op.wr r.2 TYPE_END] else [])
          ++ [Op.wr to_overwrite ty]
          ++ compress_loop m new_end_macro sfuel fuel r.2 next2

/-- `compress()`: find the first deleted record from `ms` (the macro
area's first address); if none, do nothing; otherwise provisionally write
`TYPE_END` there and run the copy loop.  Returns the queued operations. -/
def compress (m : Mem) (ms new_end_macro sfuel lfuel : Nat) : List Op :=
  let to_overwrite := find_next_deleted m sfuel ms
  if to_overwrite = 0 then []
  else
    let next := find_next_nondeleted m sfuel to_overwrite
    Op.wr to_overwrite TYPE_END ::
      compress_loop m new_end_macro sfuel lfuel to_overwrite next

/-- The store's global cursor variables `end_macro` and `new_end_macro`. -/
structure MacroGlobals where
  end_macro : Nat
  new_end_macro : Nat
deriving DecidableEq, Repr

/-- `compress` with the global cursor state threaded explicitly: the C
body reads `new_end_macro` but contains no assignment to `end_macro` or
`new_end_macro`, so the globals are returned unchanged. -/
def compress_globals (m : Mem) (ms sfuel lfuel : Nat) (g : MacroGlobals) :
    MacroGlobals × List Op :=
  (g, compress m ms ( MacroGlobals.new_end_macro g) sfuel lfuel)

/-! ## On-media record layout (the well-formedness hypothesis of the
theorems, from the "(group) EEMEM layout" documentation in the source) -/

/-- A non-`End` macro record: its kind and its data bytes (everything
after the `type` and `length` header bytes). -/
inductive MacroRec where
  | del (payload : List Nat)
  | mac (payload : List Nat)
  | contd (payload : List Nat)
deriving DecidableEq, Repr

/-- The tag byte of a record. -/
def recTag : MacroRec → Nat
  | .del _ => TYPE_DELETED
  | .mac _ => TYPE_VALID_MACRO
  | .contd _ => TYPE_CONTINUED

/-- The data bytes of a record. -/
def recPayload : MacroRec → List Nat
  | .del p => p
  | .mac p => p
  | .contd p => p

/-- The value of a record's `length` byte: the total number of bytes used
by the record, including the `type` and `length` bytes themselves. -/
def recLen (r : MacroRec) : Nat := (recPayload r).length + 2

/-- The bytes of one record as stored: tag, length, payload. -/
def recBytes (r : MacroRec) : List Nat := recTag r :: recLen r :: recPayload r

/-- The bytes of the whole macro area: the records in order, terminated by
the single `TYPE_END` byte. -/
def areaBytes (rs : List MacroRec) : List Nat :=
  (rs.map recBytes).flatten ++ [TYPE_END]

/-- Total byte length of a record list (without the `End` byte). -/
def recsLen (rs : List MacroRec) : Nat := (rs.map recLen).sum

/-- `m` holds the byte list `bs` at consecutive addresses from `a`. -/
def agrees (m : Mem) : Nat → List Nat → Prop
  | _, [] => True
  | a, b :: bs => m a = b ∧ agrees m (a + 1) bs

instance agrees.dec (m : Mem) : (a : Nat) → (bs : List Nat) →
    Decidable (agrees m a bs)
  | _, [] => .isTrue trivial
  | a, b :: bs =>
    have : Decidable (agrees m (a + 1) bs) := agrees.dec m (a + 1) bs
    inferInstanceAs (Decidable (m a = b ∧ agrees m (a + 1) bs))

/-- The macro area is well formed: the records `rs` are laid out at `ms`,
terminated by a single `End` record, and every record's `length` byte fits
in `uint8_t`. -/
def WFarea (m : Mem) (ms : Nat) (rs : List MacroRec) : Prop :=
  agrees m ms (areaBytes rs) ∧ ∀ r ∈ rs, recLen r ≤ 255

instance WFarea.dec (m : Mem) (ms : Nat) (rs : List MacroRec) :
    Decidable (WFarea m ms rs) :=
  inferInstanceAs
    (Decidable (agrees m ms (areaBytes rs) ∧ ∀ r ∈ rs, recLen r ≤ 255))

/-- The addresses of the records of the area, in order. -/
def boundaries : Nat → List MacroRec → List Nat
  | _, [] => []
  | a, r :: rs => a :: boundaries (a + recLen r) rs

/-- Byte offset of the first `Deleted` record of `rs` (`none` when the
`End` record would be reached first). -/
def firstDeletedOff : List MacroRec → Option Nat
  | [] => none
  | r :: rs =>
    if recTag r = TYPE_DELETED then some 0
    else (firstDeletedOff rs).map (recLen r + ·)

/-- Byte offset of the first record of `rs` that is neither `Deleted` nor
`Continued` (the offset of the `End` record when every record is). -/
def firstNonDelOff : List MacroRec → Nat
  | [] => 0
  | r :: rs =>
    if recTag r = TYPE_DELETED ∨ recTag r = TYPE_CONTINUED then
      recLen r + firstNonDelOff rs
    else 0

/-- A parse of the memory bytes as a chain of records whose tags satisfy
`P`, starting at `a` and ending exactly at `b`: each step reads a tag
(not `TYPE_END`, satisfying `P`) and a length byte `≥ 2` and advances by
that length.  This is the record-chain reading of raw memory that the
scanning loops of the C code perform. -/
inductive ChainSeg (P : Nat → Prop) (M : Mem) : Nat → Nat → Prop
  | nil (a : Nat) : ChainSeg P M a a
  | cons (a b : Nat) : P (M a) → 2 ≤ M (a + 1) →
      ChainSeg P M (a + M (a + 1)) b → ChainSeg P M a b

/-- Tag of a live (compacted) record: a valid macro or a continuation. -/
def LiveTag (t : Nat) : Prop := t = TYPE_VALID_MACRO ∨ t = TYPE_CONTINUED

/-- Tag of any non-`End` record. -/
def RecTagP (t : Nat) : Prop := t ≠ TYPE_END

/-- The memory parses, from `a`, as a record chain terminating in exactly
one `End` record, whose terminal `End` lies at or before `bound` (claim
C2's "always parseable" condition: the chain's records are non-`End`, and
the first `End` byte reached terminates it). -/
def ValidArea (M : Mem) (a bound : Nat) : Prop :=
  ∃ e, ChainSeg RecTagP M a e ∧ M e = TYPE_END ∧ e ≤ bound

/-- As `ValidArea`, but every record of the chain is live (no tombstone
remains): the state produced by a completed compaction. -/
def LiveArea (M : Mem) (a : Nat) : Prop :=
  ∃ e, ChainSeg LiveTag M a e ∧ M e = TYPE_END

/-- Modelled from the spec: the result `find_by_event` should produce on a
well-formed area (§4.3): the address of the first `ValidMacro` record, in
address order, whose decoded trigger equals `k` in all four fields —
`Deleted`/`Continued` records are passed over without any trigger
comparison — or the sentinel `0` when the `End` record is reached. -/
def findSpec (m : Mem) (k : key_action_t) (rfuel : Nat) :
    Nat → List MacroRec → Nat
  | _, [] => 0
  | a, r :: rs =>
    if recTag r = TYPE_VALID_MACRO ∧ read_key_action m (a + 2) rfuel = k
    then a
    else findSpec m k rfuel (a + recLen r) rs

/-- Modelled from the spec (§4.2, §8): the number of leading 2-bit groups,
scanning from the most significant, that are zero in the bitwise OR `z` of
`layer`, `row` and `column`, capped at 3. -/
def leadZeroGroups (z : Nat) : Nat :=
  if z &&& 0xC0 ≠ 0 then 0
  else if z &&& 0x30 ≠ 0 then 1
  else if z &&& 0x0C ≠ 0 then 2
  else 3

/-- Memory holding the byte list `l` from address `0` (zero elsewhere);
used for concrete witness instances. -/
def memL (l : List Nat) : Mem := fun a => l.getD a 0

/-! ## Bit-level toolkit for the codec -/

theorem and192_shr2 : ∀ x < 256, (x &&& 192) >>> 2 = (x >>> 6) * 16 := by
  decide

theorem and192_shr4 : ∀ x < 256, (x &&& 192) >>> 4 = (x >>> 6) * 4 := by
  decide

theorem and192_shr6 : ∀ x < 256, (x &&& 192) >>> 6 = x >>> 6 := by
  decide

theorem shr6_lt4 : ∀ x < 256, x >>> 6 < 4 := by
  decide

/-- Bit 7 of an emitted key-action byte. -/
theorem byte_shr7 : ∀ p2 < 2, ∀ h2 < 2, ∀ a < 4, ∀ b < 4, ∀ c < 4,
    ((p2 * 64) ||| (h2 <<< 7) ||| (a * 16) ||| (b * 4) ||| c) >>> 7 = h2 := by
  decide

/-- Bit 6 of an emitted key-action byte. -/
theorem byte_shr6 : ∀ p2 < 2, ∀ h2 < 2, ∀ a < 4, ∀ b < 4, ∀ c < 4,
    (((p2 * 64) ||| (h2 <<< 7) ||| (a * 16) ||| (b * 4) ||| c) >>> 6) &&& 1
      = p2 := by
  decide

/-- Bits 5-4 (the layer group) of an emitted key-action byte. -/
theorem byte_shr4 : ∀ p2 < 2, ∀ h2 < 2, ∀ a < 4, ∀ b < 4, ∀ c < 4,
    (((p2 * 64) ||| (h2 <<< 7) ||| (a * 16) ||| (b * 4) ||| c) >>> 4) &&& 3
      = a := by
  decide

/-- Bits 3-2 (the row group) of an emitted key-action byte. -/
theorem byte_shr2 : ∀ p2 < 2, ∀ h2 < 2, ∀ a < 4, ∀ b < 4, ∀ c < 4,
    (((p2 * 64) ||| (h2 <<< 7) ||| (a * 16) ||| (b * 4) ||| c) >>> 2) &&& 3
      = b := by
  decide

/-- Bits 1-0 (the column group) of an emitted key-action byte. -/
theorem byte_and3 : ∀ p2 < 2, ∀ h2 < 2, ∀ a < 4, ∀ b < 4, ∀ c < 4,
    ((p2 * 64) ||| (h2 <<< 7) ||| (a * 16) ||| (b * 4) ||| c) &&& 3 = c := by
  decide

/-- Accumulating a 2-bit group into a small shifted accumulator. -/
theorem acc_lor : ∀ x < 64, ∀ g < 4, (x * 4 % 256) ||| g = x * 4 + g := by
  decide

theorem fold_shr4 : ∀ u < 256, (u >>> 6) * 4 + ((u * 4 % 256) >>> 6)
    = u >>> 4 := by
  decide

theorem fold_shr2 : ∀ u < 256, (u >>> 6) * 16 + ((u * 4 % 256) >>> 4)
    = u >>> 2 := by
  decide

theorem fold_id : ∀ u < 256, (u >>> 6) * 64 + ((u * 4 % 256) >>> 2) = u := by
  decide

theorem and192_eq_zero : ∀ z < 256, (z &&& 192 = 0 ↔ z < 64) := by
  decide

theorem and48_eq_zero : ∀ z < 64, (z &&& 48 = 0 ↔ z < 16) := by
  decide

theorem and12_eq_zero : ∀ z < 16, (z &&& 12 = 0 ↔ z < 4) := by
  decide

theorem lor_mul4 (a b : Nat) : (a ||| b) * 4 = a * 4 ||| b * 4 := by
  have h : ∀ x : Nat, x * 4 = x <<< 2 := fun x => by rw [Nat.shiftLeft_eq]
  rw [h, h, h]
  apply Nat.eq_of_testBit_eq
  intro i
  simp [Nat.testBit_shiftLeft, Nat.testBit_or, Bool.and_or_distrib_left]

theorem lor_eq_zero {a b : Nat} : a ||| b = 0 ↔ a = 0 ∧ b = 0 := by
  constructor
  · intro h
    constructor <;> apply Nat.eq_of_testBit_eq <;> intro i <;>
      [have h2 := congrArg (fun x => Nat.testBit x i) h;
       have h2 := congrArg (fun x => Nat.testBit x i) h] <;>
      simp [Nat.testBit_or] at h2 <;> simp [h2]
  · rintro ⟨rfl, rfl⟩; simp

theorem lor_lt_256 {a b : Nat} (ha : a < 256) (hb : b < 256) :
    a ||| b < 256 := by
  have := Nat.or_lt_two_pow (show a < 2 ^ 8 from by simpa using ha)
    (show b < 2 ^ 8 from by simpa using hb)
  simpa using this

/-! ## Decoder loop lemmas -/

theorem rka_loop_stop (m : Mem) (f a byte : Nat) (k : key_action_t)
    (h : byte >>> 7 = 0) : rka_loop m f a byte k = k := by
  cases f <;> simp [rka_loop, h]

theorem rka_loop_step (m : Mem) (f a byte : Nat) (k : key_action_t)
    (h : byte >>> 7 ≠ 0) :
    rka_loop m (f + 1) a byte k =
      rka_loop m f (a + 1) (m a)
        { pressed := k.pressed
          layer := (k.layer * 4 % 256) ||| (((m a) >>> 4) &&& 3)
          row := (k.row * 4 % 256) ||| (((m a) >>> 2) &&& 3)
          column := (k.column * 4 % 256) ||| ((m a) &&& 3) } := by
  simp [rka_loop, h]

/-- Reading the single last emitted byte (the emit loop with `i = 3`)
appends the top 2-bit groups of the current fields to the accumulators. -/
theorem rka_loop_emit1 (m : Mem) (a : Nat) (p : Bool)
    (u v w aL aR aC fuel byte : Nat)
    (hu : u < 256) (hv : v < 256) (hw : w < 256)
    (haL : aL < 64) (haR : aR < 64) (haC : aC < 64)
    (hf : 1 ≤ fuel) (hb : byte >>> 7 ≠ 0)
    (hag : agrees m a (wka_emit 1 ⟨p, u, v, w⟩ 64 3)) :
    rka_loop m fuel a byte ⟨p, aL, aR, aC⟩ =
      ⟨p, aL * 4 + u >>> 6, aR * 4 + v >>> 6, aC * 4 + w >>> 6⟩ := by
  obtain ⟨f, rfl⟩ : ∃ f, fuel = f + 1 := ⟨fuel - 1, by omega⟩
  simp only [wka_emit, agrees, and_true] at hag
  rw [show ((if (3:Nat) < 3 then (1:Nat) else 0)) = 0 by norm_num] at hag
  rw [and192_shr2 u hu, and192_shr4 v hv, and192_shr6 w hw] at hag
  rw [show (64:Nat) = 1 * 64 by norm_num] at hag
  have h4u := shr6_lt4 u hu
  have h4v := shr6_lt4 v hv
  have h4w := shr6_lt4 w hw
  have h1 : (1:Nat) < 2 := by norm_num
  have h0 : (0:Nat) < 2 := by norm_num
  rw [rka_loop_step m f a byte _ hb, hag]
  rw [byte_shr4 1 h1 0 h0 _ h4u _ h4v _ h4w,
      byte_shr2 1 h1 0 h0 _ h4u _ h4v _ h4w,
      byte_and3 1 h1 0 h0 _ h4u _ h4v _ h4w]
  rw [acc_lor aL haL _ h4u, acc_lor aR haR _ h4v, acc_lor aC haC _ h4w]
  exact rka_loop_stop m f (a + 1) _ _
    (by rw [byte_shr7 1 h1 0 h0 _ h4u _ h4v _ h4w])

theorem wka_emit_cons (n : Nat) (k : key_action_t) (b6 i : Nat) :
    wka_emit (n + 1) k b6 i =
      (b6 ||| ((if i < 3 then 1 else 0) <<< 7) ||| ((k.layer &&& 0xC0) >>> 2)
          ||| ((k.row &&& 0xC0) >>> 4) ||| ((k.column &&& 0xC0) >>> 6))
        :: wka_emit n (ka_shift k) 64 (i + 1) := by
  rfl

/-- Reading the last two emitted bytes (`i = 2`). -/
theorem rka_loop_emit2 (m : Mem) (a : Nat) (p : Bool)
    (u v w aL aR aC fuel byte : Nat)
    (hu : u < 256) (hv : v < 256) (hw : w < 256)
    (haL : aL < 16) (haR : aR < 16) (haC : aC < 16)
    (hf : 2 ≤ fuel) (hb : byte >>> 7 ≠ 0)
    (hag : agrees m a (wka_emit 2 ⟨p, u, v, w⟩ 64 2)) :
    rka_loop m fuel a byte ⟨p, aL, aR, aC⟩ =
      ⟨p, aL * 16 + u >>> 4, aR * 16 + v >>> 4, aC * 16 + w >>> 4⟩ := by
  obtain ⟨f, rfl⟩ : ∃ f, fuel = f + 1 := ⟨fuel - 1, by omega⟩
  rw [wka_emit_cons] at hag
  obtain ⟨hma, hrest⟩ := hag
  rw [show ((if (2:Nat) < 3 then (1:Nat) else 0)) = 1 by norm_num] at hma
  rw [and192_shr2 u hu, and192_shr4 v hv, and192_shr6 w hw] at hma
  rw [show (64:Nat) = 1 * 64 by norm_num] at hma
  have h4u := shr6_lt4 u hu
  have h4v := shr6_lt4 v hv
  have h4w := shr6_lt4 w hw
  have h1 : (1:Nat) < 2 := by norm_num
  rw [rka_loop_step m f a byte _ hb, hma]
  rw [byte_shr4 1 h1 1 h1 _ h4u _ h4v _ h4w,
      byte_shr2 1 h1 1 h1 _ h4u _ h4v _ h4w,
      byte_and3 1 h1 1 h1 _ h4u _ h4v _ h4w]
  rw [acc_lor aL (by omega) _ h4u, acc_lor aR (by omega) _ h4v,
      acc_lor aC (by omega) _ h4w]
  simp only [ka_shift] at hrest
  rw [rka_loop_emit1 m (a + 1) p (u * 4 % 256) (v * 4 % 256) (w * 4 % 256)
      _ _ _ f (1 * 64 ||| 1 <<< 7 ||| u >>> 6 * 16 ||| v >>> 6 * 4 ||| w >>> 6)
      (Nat.mod_lt _ (by norm_num)) (Nat.mod_lt _ (by norm_num))
      (Nat.mod_lt _ (by norm_num)) (by omega) (by omega) (by omega)
      (by omega) (by rw [byte_shr7 1 h1 1 h1 _ h4u _ h4v _ h4w]; norm_num)
      hrest]
  have fu := fold_shr4 u hu
  have fv := fold_shr4 v hv
  have fw := fold_shr4 w hw
  simp only [key_action_t.mk.injEq]
  refine ⟨by trivial, by omega, by omega, by omega⟩

/-- Reading the last three emitted bytes (`i = 1`). -/
theorem rka_loop_emit3 (m : Mem) (a : Nat) (p : Bool)
    (u v w aL aR aC fuel byte : Nat)
    (hu : u < 256) (hv : v < 256) (hw : w < 256)
    (haL : aL < 4) (haR : aR < 4) (haC : aC < 4)
    (hf : 3 ≤ fuel) (hb : byte >>> 7 ≠ 0)
    (hag : agrees m a (wka_emit 3 ⟨p, u, v, w⟩ 64 1)) :
    rka_loop m fuel a byte ⟨p, aL, aR, aC⟩ =
      ⟨p, aL * 64 + u >>> 2, aR * 64 + v >>> 2, aC * 64 + w >>> 2⟩ := by
  obtain ⟨f, rfl⟩ : ∃ f, fuel = f + 1 := ⟨fuel - 1, by omega⟩
  rw [wka_emit_cons] at hag
  obtain ⟨hma, hrest⟩ := hag
  rw [show ((if (1:Nat) < 3 then (1:Nat) else 0)) = 1 by norm_num] at hma
  rw [and192_shr2 u hu, and192_shr4 v hv, and192_shr6 w hw] at hma
  rw [show (64:Nat) = 1 * 64 by norm_num] at hma
  have h4u := shr6_lt4 u hu
  have h4v := shr6_lt4 v hv
  have h4w := shr6_lt4 w hw
  have h1 : (1:Nat) < 2 := by norm_num
  rw [rka_loop_step m f a byte _ hb, hma]
  rw [byte_shr4 1 h1 1 h1 _ h4u _ h4v _ h4w,
      byte_shr2 1 h1 1 h1 _ h4u _ h4v _ h4w,
      byte_and3 1 h1 1 h1 _ h4u _ h4v _ h4w]
  rw [acc_lor aL (by omega) _ h4u, acc_lor aR (by omega) _ h4v,
      acc_lor aC (by omega) _ h4w]
  simp only [ka_shift] at hrest
  rw [rka_loop_emit2 m (a + 1) p (u * 4 % 256) (v * 4 % 256) (w * 4 % 256)
      _ _ _ f (1 * 64 ||| 1 <<< 7 ||| u >>> 6 * 16 ||| v >>> 6 * 4 ||| w >>> 6)
      (Nat.mod_lt _ (by norm_num)) (Nat.mod_lt _ (by norm_num))
      (Nat.mod_lt _ (by norm_num)) (by omega) (by omega) (by omega)
      (by omega) (by rw [byte_shr7 1 h1 1 h1 _ h4u _ h4v _ h4w]; norm_num)
      hrest]
  have fu := fold_shr2 u hu
  have fv := fold_shr2 v hv
  have fw := fold_shr2 w hw
  simp only [key_action_t.mk.injEq]
  refine ⟨by trivial, by omega, by omega, by omega⟩

theorem if_pressed_lt2 (p : Bool) : (if p then (1:Nat) else 0) < 2 := by
  cases p <;> norm_num

theorem if_pressed_beq (p : Bool) : ((if p then (1:Nat) else 0) == 1) = p := by
  cases p <;> rfl

/-- Decoding one emitted byte (the encoder skipped three groups). -/
theorem rka_rt1 (m : Mem) (a : Nat) (p : Bool) (u v w : Nat)
    (hu : u < 256) (hv : v < 256) (hw : w < 256)
    (hag : agrees m a (wka_emit 1 ⟨p, u, v, w⟩ ((if p then 1 else 0) <<< 6) 3)) :
    read_key_action m a 3 = ⟨p, u >>> 6, v >>> 6, w >>> 6⟩ := by
  rw [wka_emit_cons] at hag
  obtain ⟨hma, -⟩ := hag
  rw [show ((if (3:Nat) < 3 then (1:Nat) else 0)) = 0 by norm_num] at hma
  rw [and192_shr2 u hu, and192_shr4 v hv, and192_shr6 w hw] at hma
  rw [show ((if p then (1:Nat) else 0) <<< 6) = (if p then (1:Nat) else 0) * 64
    by cases p <;> decide] at hma
  have h4u := shr6_lt4 u hu
  have h4v := shr6_lt4 v hv
  have h4w := shr6_lt4 w hw
  have hp2 := if_pressed_lt2 p
  have h0 : (0:Nat) < 2 := by norm_num
  simp only [read_key_action]
  rw [hma]
  rw [byte_shr6 _ hp2 0 h0 _ h4u _ h4v _ h4w,
      byte_shr4 _ hp2 0 h0 _ h4u _ h4v _ h4w,
      byte_shr2 _ hp2 0 h0 _ h4u _ h4v _ h4w,
      byte_and3 _ hp2 0 h0 _ h4u _ h4v _ h4w,
      rka_loop_stop m 3 (a + 1) _ _
        (by rw [byte_shr7 _ hp2 0 h0 _ h4u _ h4v _ h4w]),
      if_pressed_beq p]

/-- Decoding two emitted bytes (the encoder skipped two groups). -/
theorem rka_rt2 (m : Mem) (a : Nat) (p : Bool) (u v w : Nat)
    (hu : u < 256) (hv : v < 256) (hw : w < 256)
    (hag : agrees m a (wka_emit 2 ⟨p, u, v, w⟩ ((if p then 1 else 0) <<< 6) 2)) :
    read_key_action m a 3 = ⟨p, u >>> 4, v >>> 4, w >>> 4⟩ := by
  rw [wka_emit_cons] at hag
  obtain ⟨hma, hrest⟩ := hag
  rw [show ((if (2:Nat) < 3 then (1:Nat) else 0)) = 1 by norm_num] at hma
  rw [and192_shr2 u hu, and192_shr4 v hv, and192_shr6 w hw] at hma
  rw [show ((if p then (1:Nat) else 0) <<< 6) = (if p then (1:Nat) else 0) * 64
    by cases p <;> decide] at hma
  have h4u := shr6_lt4 u hu
  have h4v := shr6_lt4 v hv
  have h4w := shr6_lt4 w hw
  have hp2 := if_pressed_lt2 p
  have h1 : (1:Nat) < 2 := by norm_num
  simp only [read_key_action]
  rw [hma]
  rw [byte_shr6 _ hp2 1 h1 _ h4u _ h4v _ h4w,
      byte_shr4 _ hp2 1 h1 _ h4u _ h4v _ h4w,
      byte_shr2 _ hp2 1 h1 _ h4u _ h4v _ h4w,
      byte_and3 _ hp2 1 h1 _ h4u _ h4v _ h4w,
      if_pressed_beq p]
  simp only [ka_shift] at hrest
  rw [rka_loop_emit1 m (a + 1) p (u * 4 % 256) (v * 4 % 256) (w * 4 % 256)
      _ _ _ 3 _
      (Nat.mod_lt _ (by norm_num)) (Nat.mod_lt _ (by norm_num))
      (Nat.mod_lt _ (by norm_num)) (by omega) (by omega) (by omega)
      (by omega) (by rw [byte_shr7 _ hp2 1 h1 _ h4u _ h4v _ h4w]; norm_num)
      hrest]
  have fu := fold_shr4 u hu
  have fv := fold_shr4 v hv
  have fw := fold_shr4 w hw
  simp only [key_action_t.mk.injEq]
  refine ⟨by trivial, by omega, by omega, by omega⟩

/-- Decoding three emitted bytes (the encoder skipped one group). -/
theorem rka_rt3 (m : Mem) (a : Nat) (p : Bool) (u v w : Nat)
    (hu : u < 256) (hv : v < 256) (hw : w < 256)
    (hag : agrees m a (wka_emit 3 ⟨p, u, v, w⟩ ((if p then 1 else 0) <<< 6) 1)) :
    read_key_action m a 3 = ⟨p, u >>> 2, v >>> 2, w >>> 2⟩ := by
  rw [wka_emit_cons] at hag
  obtain ⟨hma, hrest⟩ := hag
  rw [show ((if (1:Nat) < 3 then (1:Nat) else 0)) = 1 by norm_num] at hma
  rw [and192_shr2 u hu, and192_shr4 v hv, and192_shr6 w hw] at hma
  rw [show ((if p then (1:Nat) else 0) <<< 6) = (if p then (1:Nat) else 0) * 64
    by cases p <;> decide] at hma
  have h4u := shr6_lt4 u hu
  have h4v := shr6_lt4 v hv
  have h4w := shr6_lt4 w hw
  have hp2 := if_pressed_lt2 p
  have h1 : (1:Nat) < 2 := by norm_num
  simp only [read_key_action]
  rw [hma]
  rw [byte_shr6 _ hp2 1 h1 _ h4u _ h4v _ h4w,
      byte_shr4 _ hp2 1 h1 _ h4u _ h4v _ h4w,
      byte_shr2 _ hp2 1 h1 _ h4u _ h4v _ h4w,
      byte_and3 _ hp2 1 h1 _ h4u _ h4v _ h4w,
      if_pressed_beq p]
  simp only [ka_shift] at hrest
  rw [rka_loop_emit2 m (a + 1) p (u * 4 % 256) (v * 4 % 256) (w * 4 % 256)
      _ _ _ 3 _
      (Nat.mod_lt _ (by norm_num)) (Nat.mod_lt _ (by norm_num))
      (Nat.mod_lt _ (by norm_num)) (by omega) (by omega) (by omega)
      (by omega) (by rw [byte_shr7 _ hp2 1 h1 _ h4u _ h4v _ h4w]; norm_num)
      hrest]
  have fu := fold_shr2 u hu
  have fv := fold_shr2 v hv
  have fw := fold_shr2 w hw
  simp only [key_action_t.mk.injEq]
  refine ⟨by trivial, by omega, by omega, by omega⟩

/-- Decoding four emitted bytes (the encoder skipped no group). -/
theorem rka_rt4 (m : Mem) (a : Nat) (p : Bool) (u v w : Nat)
    (hu : u < 256) (hv : v < 256) (hw : w < 256)
    (hag : agrees m a (wka_emit 4 ⟨p, u, v, w⟩ ((if p then 1 else 0) <<< 6) 0)) :
    read_key_action m a 3 = ⟨p, u, v, w⟩ := by
  rw [wka_emit_cons] at hag
  obtain ⟨hma, hrest⟩ := hag
  rw [show ((if (0:Nat) < 3 then (1:Nat) else 0)) = 1 by norm_num] at hma
  rw [and192_shr2 u hu, and192_shr4 v hv, and192_shr6 w hw] at hma
  rw [show ((if p then (1:Nat) else 0) <<< 6) = (if p then (1:Nat) else 0) * 64
    by cases p <;> decide] at hma
  have h4u := shr6_lt4 u hu
  have h4v := shr6_lt4 v hv
  have h4w := shr6_lt4 w hw
  have hp2 := if_pressed_lt2 p
  have h1 : (1:Nat) < 2 := by norm_num
  simp only [read_key_action]
  rw [hma]
  rw [byte_shr6 _ hp2 1 h1 _ h4u _ h4v _ h4w,
      byte_shr4 _ hp2 1 h1 _ h4u _ h4v _ h4w,
      byte_shr2 _ hp2 1 h1 _ h4u _ h4v _ h4w,
      byte_and3 _ hp2 1 h1 _ h4u _ h4v _ h4w,
      if_pressed_beq p]
  simp only [ka_shift] at hrest
  rw [rka_loop_emit3 m (a + 1) p (u * 4 % 256) (v * 4 % 256) (w * 4 % 256)
      _ _ _ 3 _
      (Nat.mod_lt _ (by norm_num)) (Nat.mod_lt _ (by norm_num))
      (Nat.mod_lt _ (by norm_num)) h4u h4v h4w
      (by omega) (by rw [byte_shr7 _ hp2 1 h1 _ h4u _ h4v _ h4w]; norm_num)
      hrest]
  have fu := fold_id u hu
  have fv := fold_id v hv
  have fw := fold_id w hw
  simp only [key_action_t.mk.injEq]
  refine ⟨by trivial, by omega, by omega, by omega⟩

/-! ## The skip loop -/

theorem comp_and_zero {l r c mask : Nat}
    (h : (l ||| r ||| c) &&& mask = 0) :
    l &&& mask = 0 ∧ r &&& mask = 0 ∧ c &&& mask = 0 := by
  rw [Nat.and_distrib_right, Nat.and_distrib_right] at h
  obtain ⟨h1, h2⟩ := lor_eq_zero.mp h
  obtain ⟨h3, h4⟩ := lor_eq_zero.mp h1
  exact ⟨h3, h4, h2⟩

/-- One iteration of the skip loop when the leading groups are zero. -/
theorem wka_skip_step_pos (k : key_action_t) (n : Nat)
    (h : (k.layer ||| k.row ||| k.column) &&& 0xC0 = 0) :
    wka_skip k (n + 1) =
      ((wka_skip (ka_shift k) n).1 + 1, (wka_skip (ka_shift k) n).2) := by
  simp [wka_skip, h]

/-- The skip loop stops when a leading group is nonzero. -/
theorem wka_skip_step_neg (k : key_action_t) (n : Nat)
    (h : ¬ (k.layer ||| k.row ||| k.column) &&& 0xC0 = 0) :
    wka_skip k (n + 1) = (0, k) := by
  simp [wka_skip, h]

/-- The skip loop of `write_key_action` skips exactly the leading all-zero
2-bit groups of `layer ||| row ||| column` (capped at 3), shifting each
field two bits left per skip, with no `uint8_t` truncation. -/
theorem wka_skip_spec (p : Bool) (l r c : Nat)
    (hl : l < 256) (hr : r < 256) (hc : c < 256) :
    wka_skip ⟨p, l, r, c⟩ 3 =
      (leadZeroGroups (l ||| r ||| c),
        ⟨p, l * 4 ^ leadZeroGroups (l ||| r ||| c),
            r * 4 ^ leadZeroGroups (l ||| r ||| c),
            c * 4 ^ leadZeroGroups (l ||| r ||| c)⟩) := by
  have hz : (l ||| r ||| c) < 256 := lor_lt_256 (lor_lt_256 hl hr) hc
  by_cases h0 : (l ||| r ||| c) &&& 192 = 0
  · obtain ⟨hl0, hr0, hc0⟩ := comp_and_zero h0
    have hl64 : l < 64 := (and192_eq_zero l hl).mp hl0
    have hr64 : r < 64 := (and192_eq_zero r hr).mp hr0
    have hc64 : c < 64 := (and192_eq_zero c hc).mp hc0
    have hz64 : (l ||| r ||| c) < 64 := (and192_eq_zero _ hz).mp h0
    have hshift1 : ka_shift ⟨p, l, r, c⟩ = ⟨p, l * 4, r * 4, c * 4⟩ := by
      simp [ka_shift, Nat.mod_eq_of_lt (show l * 4 < 256 by omega),
        Nat.mod_eq_of_lt (show r * 4 < 256 by omega),
        Nat.mod_eq_of_lt (show c * 4 < 256 by omega)]
    have hor4 : (l * 4 ||| r * 4 ||| c * 4) = (l ||| r ||| c) * 4 := by
      rw [lor_mul4, lor_mul4]
    rw [wka_skip_step_pos _ 2 h0, hshift1]
    by_cases h1 : ((l ||| r ||| c) * 4) &&& 192 = 0
    · have hz16 : (l ||| r ||| c) < 16 := by
        have := (and192_eq_zero _ (show (l ||| r ||| c) * 4 < 256 by omega)).mp
          h1
        omega
      have hcomp4 : l * 4 &&& 192 = 0 ∧ r * 4 &&& 192 = 0 ∧
          c * 4 &&& 192 = 0 := comp_and_zero (by rw [hor4]; exact h1)
      have hl16 : l < 16 := by
        have := (and192_eq_zero (l * 4) (by omega)).mp hcomp4.1
        omega
      have hr16 : r < 16 := by
        have := (and192_eq_zero (r * 4) (by omega)).mp hcomp4.2.1
        omega
      have hc16 : c < 16 := by
        have := (and192_eq_zero (c * 4) (by omega)).mp hcomp4.2.2
        omega
      have hshift2 : ka_shift ⟨p, l * 4, r * 4, c * 4⟩ =
          ⟨p, l * 4 * 4, r * 4 * 4, c * 4 * 4⟩ := by
        simp [ka_shift, Nat.mod_eq_of_lt (show l * 4 * 4 < 256 by omega),
          Nat.mod_eq_of_lt (show r * 4 * 4 < 256 by omega),
          Nat.mod_eq_of_lt (show c * 4 * 4 < 256 by omega)]
      have hor16 : (l * 4 * 4 ||| r * 4 * 4 ||| c * 4 * 4) =
          (l ||| r ||| c) * 4 * 4 := by
        conv_rhs => rw [← hor4]
        rw [lor_mul4, lor_mul4]
      have c48 : (l ||| r ||| c) &&& 48 = 0 :=
        (and48_eq_zero _ hz64).mpr hz16
      rw [wka_skip_step_pos _ 1 (by rw [hor4]; exact h1), hshift2]
      by_cases h2 : ((l ||| r ||| c) * 4 * 4) &&& 192 = 0
      · -- three skips
        have hz4 : (l ||| r ||| c) < 4 := by
          have := (and192_eq_zero _
            (show (l ||| r ||| c) * 4 * 4 < 256 by omega)).mp h2
          omega
        have hcomp16 : l * 4 * 4 &&& 192 = 0 ∧ r * 4 * 4 &&& 192 = 0 ∧
            c * 4 * 4 &&& 192 = 0 := comp_and_zero (by rw [hor16]; exact h2)
        have hl4 : l < 4 := by
          have := (and192_eq_zero (l * 4 * 4) (by omega)).mp hcomp16.1
          omega
        have hr4 : r < 4 := by
          have := (and192_eq_zero (r * 4 * 4) (by omega)).mp hcomp16.2.1
          omega
        have hc4 : c < 4 := by
          have := (and192_eq_zero (c * 4 * 4) (by omega)).mp hcomp16.2.2
          omega
        have hlzg : leadZeroGroups (l ||| r ||| c) = 3 := by
          have c12 : (l ||| r ||| c) &&& 12 = 0 :=
            (and12_eq_zero _ hz16).mpr hz4
          simp [leadZeroGroups, h0, c48, c12]
        rw [wka_skip_step_pos _ 0 (by rw [hor16]; exact h2), hlzg]
        simp only [wka_skip, ka_shift]
        refine congrArg _ ?_
        simp only [key_action_t.mk.injEq]
        refine ⟨by trivial, ?_, ?_, ?_⟩ <;>
          rw [Nat.mod_eq_of_lt (by omega)] <;> ring
      · -- two skips
        have hlzg : leadZeroGroups (l ||| r ||| c) = 2 := by
          have hz4 : ¬ (l ||| r ||| c) < 4 := fun hlt =>
            h2 ((and192_eq_zero _
              (show (l ||| r ||| c) * 4 * 4 < 256 by omega)).mpr (by omega))
          have c12 : (l ||| r ||| c) &&& 12 ≠ 0 := fun h12 =>
            hz4 ((and12_eq_zero _ hz16).mp h12)
          simp [leadZeroGroups, h0, c48, c12]
        rw [wka_skip_step_neg _ 0 (by rw [hor16]; exact h2), hlzg]
        refine congrArg _ ?_
        simp only [key_action_t.mk.injEq]
        refine ⟨by trivial, by ring, by ring, by ring⟩
    · -- exactly one skip
      have hlzg : leadZeroGroups (l ||| r ||| c) = 1 := by
        have hz16 : ¬ (l ||| r ||| c) < 16 := fun hlt =>
          h1 ((and192_eq_zero _
            (show (l ||| r ||| c) * 4 < 256 by omega)).mpr (by omega))
        have c48 : (l ||| r ||| c) &&& 48 ≠ 0 := fun h48 =>
          hz16 ((and48_eq_zero _ hz64).mp h48)
        simp [leadZeroGroups, h0, c48]
      rw [wka_skip_step_neg _ 1 (by rw [hor4]; exact h1), hlzg]
      refine congrArg _ ?_
      simp only [key_action_t.mk.injEq]
      refine ⟨by trivial, by ring, by ring, by ring⟩
  · -- no skip
    have hlzg : leadZeroGroups (l ||| r ||| c) = 0 := by
      simp [leadZeroGroups, h0]
    rw [wka_skip_step_neg _ 2 h0, hlzg]
    refine congrArg _ ?_
    simp only [key_action_t.mk.injEq]
    exact ⟨by trivial, by ring, by ring, by ring⟩

theorem leadZeroGroups_le3 (z : Nat) : leadZeroGroups z ≤ 3 := by
  unfold leadZeroGroups
  split
  · omega
  · split
    · omega
    · split <;> omega

theorem wka_emit_length : ∀ (n : Nat) (k : key_action_t) (b6 i : Nat),
    (wka_emit n k b6 i).length = n := by
  intro n
  induction n with
  | zero => intro k b6 i; rfl
  | succ n ih => intro k b6 i; simp [wka_emit, ih]

theorem writesAt_length : ∀ (d : Nat) (bs : List Nat),
    (writesAt d bs).length = bs.length := by
  intro d bs
  induction bs generalizing d with
  | nil => rfl
  | cons b bs ih => simp [writesAt, ih]

theorem wka_skip_le : ∀ (n : Nat) (k : key_action_t),
    (wka_skip k n).1 ≤ n := by
  intro n
  induction n with
  | zero => intro k; simp [wka_skip]
  | succ n ih =>
    intro k
    simp only [wka_skip]
    split
    · have := ih (ka_shift k)
      simp
      omega
    · simp

theorem lzg_ge1 {z : Nat} (h : 1 ≤ leadZeroGroups z) : z &&& 192 = 0 := by
  by_contra hz
  simp [leadZeroGroups, hz] at h

theorem lzg_ge2 {z : Nat} (h : 2 ≤ leadZeroGroups z) :
    z &&& 192 = 0 ∧ z &&& 48 = 0 := by
  refine ⟨lzg_ge1 (show 1 ≤ leadZeroGroups z from by omega), ?_⟩
  by_contra hz
  simp [leadZeroGroups, lzg_ge1 (show 1 ≤ leadZeroGroups z from by omega),
    hz] at h

theorem lzg_ge3 {z : Nat} (h : 3 ≤ leadZeroGroups z) :
    z &&& 192 = 0 ∧ z &&& 48 = 0 ∧ z &&& 12 = 0 := by
  obtain ⟨h1, h2⟩ := lzg_ge2 (show 2 ≤ leadZeroGroups z from by omega)
  refine ⟨h1, h2, ?_⟩
  by_contra hz
  simp [leadZeroGroups, h1, h2, hz] at h

theorem and_lt16 : ∀ x < 256, x &&& 192 = 0 → x &&& 48 = 0 → x < 16 := by
  decide

theorem and_lt4 : ∀ x < 256, x &&& 192 = 0 → x &&& 48 = 0 →
    x &&& 12 = 0 → x < 4 := by
  decide

theorem shr_cancel1 : ∀ x < 64, (x * 4) >>> 2 = x := by
  decide

theorem shr_cancel2 : ∀ x < 16, (x * 16) >>> 4 = x := by
  decide

theorem shr_cancel3 : ∀ x < 4, (x * 64) >>> 6 = x := by
  decide

/-- C1: Codec round-trip: for every Event with `pressed` a boolean and
`layer`, `row`, `column` each in `[0,255]`, decoding (`read_key_action`)
the byte sequence produced by a successful encode (`write_key_action`) of
that Event, starting at its first emitted byte, yields an Event equal to
the original in all four fields. -/
theorem c1_codec_roundtrip (k : key_action_t)
    (hl : k.layer < 256) (hr : k.row < 256) (hc : k.column < 256)
    (m : Mem) (a : Nat) (hag : agrees m a (wka_bytes k)) :
    read_key_action m a 3 = k := by
  obtain ⟨p, l, r, c⟩ := k
  simp only at hl hr hc
  have hskip := wka_skip_spec p l r c hl hr hc
  unfold wka_bytes at hag
  simp only [hskip] at hag
  have hz : (l ||| r ||| c) < 256 := lor_lt_256 (lor_lt_256 hl hr) hc
  have hs3 := leadZeroGroups_le3 (l ||| r ||| c)
  set s := leadZeroGroups (l ||| r ||| c) with hs
  interval_cases s
  · norm_num at hag
    exact rka_rt4 m a p l r c hl hr hc hag
  · obtain ⟨hl0, hr0, hc0⟩ :=
      comp_and_zero (lzg_ge1
        (show 1 ≤ leadZeroGroups (l ||| r ||| c) from by omega))
    have hl64 : l < 64 := (and192_eq_zero l hl).mp hl0
    have hr64 : r < 64 := (and192_eq_zero r hr).mp hr0
    have hc64 : c < 64 := (and192_eq_zero c hc).mp hc0
    norm_num at hag
    rw [rka_rt3 m a p (l * 4) (r * 4) (c * 4) (by omega) (by omega) (by omega)
      hag]
    rw [shr_cancel1 l hl64, shr_cancel1 r hr64, shr_cancel1 c hc64]
  · have hz2 := lzg_ge2
      (show 2 ≤ leadZeroGroups (l ||| r ||| c) from by omega)
    obtain ⟨hl0, hr0, hc0⟩ := comp_and_zero hz2.1
    obtain ⟨hl1, hr1, hc1⟩ := comp_and_zero hz2.2
    have hl16 : l < 16 := and_lt16 l hl hl0 hl1
    have hr16 : r < 16 := and_lt16 r hr hr0 hr1
    have hc16 : c < 16 := and_lt16 c hc hc0 hc1
    norm_num at hag
    rw [rka_rt2 m a p (l * 16) (r * 16) (c * 16) (by omega) (by omega)
      (by omega) hag]
    rw [shr_cancel2 l hl16, shr_cancel2 r hr16, shr_cancel2 c hc16]
  · have hz3 := lzg_ge3
      (show 3 ≤ leadZeroGroups (l ||| r ||| c) from by omega)
    obtain ⟨hl0, hr0, hc0⟩ := comp_and_zero hz3.1
    obtain ⟨hl1, hr1, hc1⟩ := comp_and_zero hz3.2.1
    obtain ⟨hl2, hr2, hc2⟩ := comp_and_zero hz3.2.2
    have hl4 : l < 4 := and_lt4 l hl hl0 hl1 hl2
    have hr4 : r < 4 := and_lt4 r hr hr0 hr1 hr2
    have hc4 : c < 4 := and_lt4 c hc hc0 hc1 hc2
    norm_num at hag
    rw [rka_rt1 m a p (l * 64) (r * 64) (c * 64) (by omega) (by omega)
      (by omega) hag]
    rw [shr_cancel3 l hl4, shr_cancel3 r hr4, shr_cancel3 c hc4]

/-- Witness for C1 at the concrete Event
`(pressed = true, layer = 4, row = 25, column = 35)`, with the encoded
bytes placed at address 0. -/
theorem c1_codec_roundtrip_witness :
    (⟨true, 4, 25, 35⟩ : key_action_t).layer < 256 ∧
    (⟨true, 4, 25, 35⟩ : key_action_t).row < 256 ∧
    (⟨true, 4, 25, 35⟩ : key_action_t).column < 256 ∧
    agrees (memL (wka_bytes ⟨true, 4, 25, 35⟩)) 0
      (wka_bytes ⟨true, 4, 25, 35⟩) ∧
    read_key_action (memL (wka_bytes ⟨true, 4, 25, 35⟩)) 0 3 =
      ⟨true, 4, 25, 35⟩ :=
  ⟨by norm_num, by norm_num, by norm_num, by decide,
    c1_codec_roundtrip ⟨true, 4, 25, 35⟩ (by norm_num) (by norm_num)
      (by norm_num) _ 0 (by decide)⟩

/-- C4: Encode length: a successful `write_key_action` emits exactly
`4 - s` bytes, where `s ≤ 3` is the number of leading 2-bit groups whose
bitwise OR across `layer`, `row` and `column` is zero — always between 1
and 4 bytes; `(pressed = false, 0, 0, 0)` encodes to exactly one byte, and
`(pressed = false, 0b00000100, 0b00011001, 0b00100011)` to exactly the
three bytes `0b10000110, 0b11011000, 0b01000111`. -/
theorem c4_encode_length (e dst : Nat) (k : key_action_t)
    (hl : k.layer < 256) (hr : k.row < 256) (hc : k.column < 256)
    (hok : ¬ dst > e - 4) :
    ((write_key_action e dst k).1.length
        = 4 - leadZeroGroups (k.layer ||| k.row ||| k.column)
      ∧ (write_key_action e dst k).2
        = 4 - leadZeroGroups (k.layer ||| k.row ||| k.column)
      ∧ leadZeroGroups (k.layer ||| k.row ||| k.column) ≤ 3
      ∧ 1 ≤ (write_key_action e dst k).2
      ∧ (write_key_action e dst k).2 ≤ 4)
    ∧ wka_bytes ⟨false, 0, 0, 0⟩ = [0b00000000]
    ∧ wka_bytes ⟨false, 0b00000100, 0b00011001, 0b00100011⟩
        = [0b10000110, 0b11011000, 0b01000111] := by
  refine ⟨?_, by decide, by decide⟩
  obtain ⟨p, l, r, c⟩ := k
  simp only at hl hr hc
  have hskip := wka_skip_spec p l r c hl hr hc
  have hs3 := leadZeroGroups_le3 (l ||| r ||| c)
  simp only [write_key_action, if_neg hok]
  rw [writesAt_length]
  unfold wka_bytes
  simp only [hskip, wka_emit_length]
  exact ⟨trivial, trivial, hs3, by omega, by omega⟩

/-- Witness for C4 at concrete arguments (`EEMEM_END = 100`, write
position 20, the spec's worked-example Event). -/
theorem c4_encode_length_witness :
    ((⟨true, 4, 25, 35⟩ : key_action_t).layer < 256 ∧
      (⟨true, 4, 25, 35⟩ : key_action_t).row < 256 ∧
      (⟨true, 4, 25, 35⟩ : key_action_t).column < 256 ∧
      ¬ (20 : Nat) > 100 - 4) ∧
    ((write_key_action 100 20 ⟨true, 4, 25, 35⟩).1.length
        = 4 - leadZeroGroups ((⟨true, 4, 25, 35⟩ : key_action_t).layer |||
            (⟨true, 4, 25, 35⟩ : key_action_t).row |||
            (⟨true, 4, 25, 35⟩ : key_action_t).column)
      ∧ (write_key_action 100 20 ⟨true, 4, 25, 35⟩).2
        = 4 - leadZeroGroups ((⟨true, 4, 25, 35⟩ : key_action_t).layer |||
            (⟨true, 4, 25, 35⟩ : key_action_t).row |||
            (⟨true, 4, 25, 35⟩ : key_action_t).column)
      ∧ leadZeroGroups ((⟨true, 4, 25, 35⟩ : key_action_t).layer |||
            (⟨true, 4, 25, 35⟩ : key_action_t).row |||
            (⟨true, 4, 25, 35⟩ : key_action_t).column) ≤ 3
      ∧ 1 ≤ (write_key_action 100 20 ⟨true, 4, 25, 35⟩).2
      ∧ (write_key_action 100 20 ⟨true, 4, 25, 35⟩).2 ≤ 4)
    ∧ wka_bytes ⟨false, 0, 0, 0⟩ = [0b00000000]
    ∧ wka_bytes ⟨false, 0b00000100, 0b00011001, 0b00100011⟩
        = [0b10000110, 0b11011000, 0b01000111] :=
  ⟨⟨by norm_num, by norm_num, by norm_num, by norm_num⟩,
    c4_encode_length 100 20 ⟨true, 4, 25, 35⟩ (by norm_num) (by norm_num)
      (by norm_num) (by norm_num)⟩

/-- C7: Encode failure condition and atomicity: `write_key_action`
returns `0` exactly when the write position fails the code's headroom
test `to > EEMEM_END - 4` (fewer than 4 bytes of headroom remain before
`EEMEM_END`); this is its only error condition, and on failure it issues
no EEPROM write at all, leaving every byte of memory unchanged. -/
theorem c7_encode_failure (e dst : Nat) (k : key_action_t) :
    ((write_key_action e dst k).2 = 0 ↔ dst > e - 4)
    ∧ (4 ≤ e → (dst > e - 4 ↔ e - dst < 4))
    ∧ (dst > e - 4 → (write_key_action e dst k).1 = []
        ∧ ∀ m : Mem, applyOps m (write_key_action e dst k).1 = m) := by
  refine ⟨?_, by omega, ?_⟩
  · by_cases h : dst > e - 4
    · simp [write_key_action, h]
    · simp only [write_key_action, if_neg h]
      have := wka_skip_le 3 k
      simp only [h, iff_false]
      omega
  · intro h
    simp [write_key_action, h, applyOps]

/-- Witness for C7: failing write position 97 with `EEMEM_END = 100`. -/
theorem c7_encode_failure_witness :
    (((write_key_action 100 97 ⟨true, 4, 25, 35⟩).2 = 0 ↔ (97:Nat) > 100 - 4)
    ∧ (4 ≤ 100 → ((97:Nat) > 100 - 4 ↔ 100 - 97 < 4))
    ∧ ((97:Nat) > 100 - 4 →
        (write_key_action 100 97 ⟨true, 4, 25, 35⟩).1 = []
        ∧ ∀ m : Mem,
            applyOps m (write_key_action 100 97 ⟨true, 4, 25, 35⟩).1 = m))
    ∧ (97:Nat) > 100 - 4 ∧ (write_key_action 100 97 ⟨true, 4, 25, 35⟩).2 = 0 :=
  ⟨c7_encode_failure 100 97 ⟨true, 4, 25, 35⟩, by norm_num, by decide⟩

/-! ## Layout lemmas -/

theorem agrees_cons (m : Mem) (a b : Nat) (bs : List Nat) :
    agrees m a (b :: bs) ↔ (m a = b ∧ agrees m (a + 1) bs) :=
  Iff.rfl

theorem agrees_append (m : Mem) : ∀ (xs ys : List Nat) (a : Nat),
    agrees m a (xs ++ ys) ↔
      (agrees m a xs ∧ agrees m (a + xs.length) ys) := by
  intro xs
  induction xs with
  | nil => intro ys a; simp [agrees]
  | cons x xs ih =>
    intro ys a
    rw [List.cons_append, agrees_cons, agrees_cons, ih ys (a + 1),
      List.length_cons]
    constructor
    · rintro ⟨h1, h2, h3⟩
      exact ⟨⟨h1, h2⟩,
        by rw [show a + (xs.length + 1) = a + 1 + xs.length by omega]
           exact h3⟩
    · rintro ⟨⟨h1, h2⟩, h3⟩
      exact ⟨h1, h2,
        by rw [show a + 1 + xs.length = a + (xs.length + 1) by omega]
           exact h3⟩

theorem areaBytes_cons (r : MacroRec) (rs : List MacroRec) :
    areaBytes (r :: rs) = recBytes r ++ areaBytes rs := by
  simp [areaBytes]

theorem recBytes_length (r : MacroRec) : (recBytes r).length = recLen r := by
  simp [recBytes, recLen]

theorem recLen_ge2 (r : MacroRec) : 2 ≤ recLen r := by
  simp [recLen]

theorem recTag_cases (r : MacroRec) :
    recTag r = TYPE_DELETED ∨ recTag r = TYPE_VALID_MACRO ∨
      recTag r = TYPE_CONTINUED := by
  cases r <;> simp [recTag]

theorem recTag_ne_end (r : MacroRec) : recTag r ≠ TYPE_END := by
  cases r <;> simp [recTag, TYPE_DELETED, TYPE_VALID_MACRO, TYPE_CONTINUED,
    TYPE_END]

theorem WFarea_nil {m : Mem} {ms : Nat} (h : WFarea m ms []) :
    m ms = TYPE_END := by
  obtain ⟨hag, -⟩ := h
  simpa [areaBytes, agrees] using hag

theorem WFarea_cons {m : Mem} {ms : Nat} {r : MacroRec} {rs : List MacroRec}
    (h : WFarea m ms (r :: rs)) :
    m ms = recTag r ∧ m (ms + 1) = recLen r ∧
      agrees m (ms + 2) (recPayload r) ∧ recLen r ≤ 255 ∧
      WFarea m (ms + recLen r) rs := by
  obtain ⟨hag, hlen⟩ := h
  rw [areaBytes_cons, agrees_append, recBytes_length] at hag
  obtain ⟨hr, hrest⟩ := hag
  simp only [recBytes, agrees] at hr
  obtain ⟨htag, hl, hpay⟩ := hr
  refine ⟨htag, hl, ?_, hlen r (by simp), hrest,
    fun r' hr' => hlen r' (by simp [hr'])⟩
  rwa [show ms + 1 + 1 = ms + 2 by omega] at hpay

theorem recsLen_cons (r : MacroRec) (rs : List MacroRec) :
    recsLen (r :: rs) = recLen r + recsLen rs := by
  simp [recsLen]

theorem recsLen_append (xs ys : List MacroRec) :
    recsLen (xs ++ ys) = recsLen xs + recsLen ys := by
  simp [recsLen]

/-- Restricting a well-formed area to the records after a split point. -/
theorem WFarea_drop {m : Mem} {ms : Nat} : ∀ {pre post : List MacroRec},
    WFarea m ms (pre ++ post) → WFarea m (ms + recsLen pre) post := by
  intro pre
  induction pre generalizing ms with
  | nil => intro post h; simpa [recsLen] using h
  | cons r pre ih =>
    intro post h
    have h' := WFarea_cons (show WFarea m ms (r :: (pre ++ post)) from h)
    have := ih h'.2.2.2.2
    rw [recsLen_cons]
    rwa [show ms + (recLen r + recsLen pre)
      = ms + recLen r + recsLen pre by omega]

/-! ## Scan characterizations -/

/-- `find_next_deleted` on a well-formed area returns the address of the
first `Deleted` record, or `0` when it reaches the `End` record first. -/
theorem find_next_deleted_spec (m : Mem) : ∀ (rs : List MacroRec)
    (ms fuel : Nat), WFarea m ms rs → rs.length + 1 ≤ fuel →
    find_next_deleted m fuel ms =
      (match firstDeletedOff rs with
       | none => 0
       | some o => ms + o) := by
  intro rs
  induction rs with
  | nil =>
    intro ms fuel hwf hf
    obtain ⟨f, rfl⟩ : ∃ f, fuel = f + 1 := ⟨fuel - 1, by omega⟩
    have hend := WFarea_nil hwf
    simp [find_next_deleted, hend, firstDeletedOff]
  | cons r rs ih =>
    intro ms fuel hwf hf
    obtain ⟨f, rfl⟩ : ∃ f, fuel = f + 1 := ⟨fuel - 1, by omega⟩
    obtain ⟨htag, hlen, -, -, hwf'⟩ := WFarea_cons hwf
    have hne := recTag_ne_end r
    cases hdel : decide (recTag r = TYPE_DELETED) with
    | true =>
      have hd := of_decide_eq_true hdel
      simp [find_next_deleted, htag, hne, hd, firstDeletedOff,
        TYPE_DELETED, TYPE_END]
    | false =>
      have hd := of_decide_eq_false hdel
      have step : find_next_deleted m (f + 1) ms =
          find_next_deleted m f (ms + recLen r) := by
        rw [find_next_deleted]
        rw [if_neg (by rw [htag]; exact hne), if_neg (by rw [htag]; exact hd),
          hlen]
      rw [step, ih (ms + recLen r) f hwf'
        (by simp only [List.length_cons] at hf; omega)]
      simp only [firstDeletedOff, if_neg hd]
      cases ho : firstDeletedOff rs with
      | none => simp
      | some o => simp [Nat.add_assoc]

/-- `find_next_nondeleted` on a well-formed area returns the address of
the first record that is neither `Deleted` nor `Continued` (the `End`
record's address when every record is). -/
theorem find_next_nondeleted_spec (m : Mem) : ∀ (rs : List MacroRec)
    (ms fuel : Nat), WFarea m ms rs → rs.length + 1 ≤ fuel →
    find_next_nondeleted m fuel ms = ms + firstNonDelOff rs := by
  intro rs
  induction rs with
  | nil =>
    intro ms fuel hwf hf
    obtain ⟨f, rfl⟩ : ∃ f, fuel = f + 1 := ⟨fuel - 1, by omega⟩
    have hend := WFarea_nil hwf
    rw [find_next_nondeleted, if_neg]
    · simp [firstNonDelOff]
    · rw [hend]
      simp [TYPE_END, TYPE_DELETED, TYPE_CONTINUED]
  | cons r rs ih =>
    intro ms fuel hwf hf
    obtain ⟨f, rfl⟩ : ∃ f, fuel = f + 1 := ⟨fuel - 1, by omega⟩
    obtain ⟨htag, hlen, -, -, hwf'⟩ := WFarea_cons hwf
    cases hdc : decide (recTag r = TYPE_DELETED ∨ recTag r = TYPE_CONTINUED)
      with
    | true =>
      have hd := of_decide_eq_true hdc
      have step : find_next_nondeleted m (f + 1) ms =
          find_next_nondeleted m f (ms + recLen r) := by
        rw [find_next_nondeleted, if_pos (by rw [htag]; exact hd), hlen]
      rw [step, ih (ms + recLen r) f hwf'
        (by simp only [List.length_cons] at hf; omega)]
      simp only [firstNonDelOff, if_pos hd]
      omega
    | false =>
      have hd := of_decide_eq_false hdc
      rw [find_next_nondeleted, if_neg (by rw [htag]; exact hd)]
      simp [firstNonDelOff, hd]

/-- `find_key_action` on a well-formed area computes `findSpec`: the
address of the first `ValidMacro` record whose decoded trigger equals the
searched key-action, or `0` when the `End` record is reached. -/
theorem find_key_action_spec (m : Mem) (k : key_action_t) (rfuel : Nat) :
    ∀ (rs : List MacroRec) (ms fuel : Nat),
    WFarea m ms rs → rs.length + 1 ≤ fuel →
    find_key_action m k rfuel fuel ms = findSpec m k rfuel ms rs := by
  intro rs
  induction rs with
  | nil =>
    intro ms fuel hwf hf
    obtain ⟨f, rfl⟩ : ∃ f, fuel = f + 1 := ⟨fuel - 1, by omega⟩
    have hend := WFarea_nil hwf
    simp [find_key_action, hend, findSpec]
  | cons r rs ih =>
    intro ms fuel hwf hf
    obtain ⟨f, rfl⟩ : ∃ f, fuel = f + 1 := ⟨fuel - 1, by omega⟩
    obtain ⟨htag, hlen, -, -, hwf'⟩ := WFarea_cons hwf
    have hne := recTag_ne_end r
    cases hmatch : decide (recTag r = TYPE_VALID_MACRO ∧
        read_key_action m (ms + 2) rfuel = k) with
    | true =>
      have hd := of_decide_eq_true hmatch
      rw [find_key_action, if_neg (by rw [htag]; exact hne),
        if_pos (by rw [htag]; exact hd)]
      rw [findSpec, if_pos hd]
    | false =>
      have hd := of_decide_eq_false hmatch
      rw [find_key_action, if_neg (by rw [htag]; exact hne),
        if_neg (by rw [htag]; exact hd), hlen,
        ih (ms + recLen r) f hwf'
          (by simp only [List.length_cons] at hf; omega)]
      rw [findSpec, if_neg hd]

/-! ## List splitting facts about the offset functions -/

theorem firstDeletedOff_none : ∀ {rs : List MacroRec},
    firstDeletedOff rs = none → ∀ r ∈ rs, recTag r ≠ TYPE_DELETED := by
  intro rs
  induction rs with
  | nil => intro _ r hr; simp at hr
  | cons r rs ih =>
    intro h r' hr'
    by_cases hd : recTag r = TYPE_DELETED
    · simp [firstDeletedOff, hd] at h
    · simp only [firstDeletedOff, if_neg hd, Option.map_eq_none'] at h
      rcases List.mem_cons.mp hr' with rfl | hmem
      · exact hd
      · exact ih h r' hmem

theorem firstDeletedOff_some : ∀ {rs : List MacroRec} {o : Nat},
    firstDeletedOff rs = some o →
    ∃ pre d post, rs = pre ++ d :: post ∧ recTag d = TYPE_DELETED ∧
      (∀ r ∈ pre, recTag r ≠ TYPE_DELETED) ∧ o = recsLen pre := by
  intro rs
  induction rs with
  | nil => intro o h; simp [firstDeletedOff] at h
  | cons r rs ih =>
    intro o h
    by_cases hd : recTag r = TYPE_DELETED
    · simp only [firstDeletedOff, if_pos hd, Option.some.injEq] at h
      exact ⟨[], r, rs, by simp, hd, by simp, by simp [← h, recsLen]⟩
    · simp only [firstDeletedOff, if_neg hd, Option.map_eq_some'] at h
      obtain ⟨o', ho', rfl⟩ := h
      obtain ⟨pre, d, post, rfl, hdd, hpre, rfl⟩ := ih ho'
      exact ⟨r :: pre, d, post, by simp, hdd,
        by intro x hx
           rcases List.mem_cons.mp hx with rfl | hmem
           · exact hd
           · exact hpre x hmem,
        by simp [recsLen_cons]⟩

theorem firstNonDelOff_split : ∀ (rs : List MacroRec),
    ∃ pre post, rs = pre ++ post ∧
      (∀ r ∈ pre, recTag r = TYPE_DELETED ∨ recTag r = TYPE_CONTINUED) ∧
      firstNonDelOff rs = recsLen pre ∧
      (post = [] ∨ ∃ r post2, post = r :: post2 ∧
        recTag r = TYPE_VALID_MACRO) := by
  intro rs
  induction rs with
  | nil => exact ⟨[], [], by simp, by simp, by simp [firstNonDelOff, recsLen],
      Or.inl rfl⟩
  | cons r rs ih =>
    by_cases hd : recTag r = TYPE_DELETED ∨ recTag r = TYPE_CONTINUED
    · obtain ⟨pre, post, rfl, hpre, hoff, hpost⟩ := ih
      refine ⟨r :: pre, post, by simp, ?_, ?_, hpost⟩
      · intro x hx
        rcases List.mem_cons.mp hx with rfl | hmem
        · exact hd
        · exact hpre x hmem
      · simp [firstNonDelOff, if_pos hd, hoff, recsLen_cons]
    · refine ⟨[], r :: rs, by simp, by simp, ?_, Or.inr ⟨r, rs, rfl, ?_⟩⟩
      · simp [firstNonDelOff, if_neg hd, recsLen]
      · rcases recTag_cases r with h | h | h
        · exact absurd (Or.inl h) hd
        · exact h
        · exact absurd (Or.inr h) hd

theorem firstNonDelOff_le : ∀ (rs : List MacroRec),
    firstNonDelOff rs ≤ recsLen rs := by
  intro rs
  induction rs with
  | nil => simp [firstNonDelOff, recsLen]
  | cons r rs ih =>
    by_cases hd : recTag r = TYPE_DELETED ∨ recTag r = TYPE_CONTINUED
    · simp only [firstNonDelOff, if_pos hd, recsLen_cons]
      omega
    · simp [firstNonDelOff, if_neg hd]

theorem boundaries_ge : ∀ (rs : List MacroRec) (a b : Nat),
    b ∈ boundaries a rs → a ≤ b := by
  intro rs
  induction rs with
  | nil => intro a b h; simp [boundaries] at h
  | cons r rs ih =>
    intro a b h
    rcases List.mem_cons.mp h with rfl | hmem
    · omega
    · have := ih (a + recLen r) b hmem
      omega

/-- C6: Navigator termination and scan results: on a well-formed macro
area, with fuel covering the record count (the C loops terminate),
`find_next_deleted` returns the address of the first `Deleted` record —
a real record address strictly before the `End` record — or `0` when the
`End` record is reached first, and `find_next_nondeleted` returns the
address of the first record that is not `Deleted`/`Continued`: either a
`ValidMacro` record or the `End` record itself; both scans stop at or
before the `End` record's address `ms + recsLen rs`. -/
theorem c6_navigator (m : Mem) (ms fuel : Nat) (rs : List MacroRec)
    (hwf : WFarea m ms rs) (hf : rs.length + 1 ≤ fuel) :
    (find_next_deleted m fuel ms =
      (match firstDeletedOff rs with
       | none => 0
       | some o => ms + o))
    ∧ find_next_nondeleted m fuel ms = ms + firstNonDelOff rs
    ∧ find_next_nondeleted m fuel ms ≤ ms + recsLen rs
    ∧ (firstDeletedOff rs = none → ∀ r ∈ rs, recTag r ≠ TYPE_DELETED)
    ∧ (∀ o, firstDeletedOff rs = some o →
        o + 2 ≤ recsLen rs ∧
        ∃ pre d post, rs = pre ++ d :: post ∧ recTag d = TYPE_DELETED ∧
          (∀ r ∈ pre, recTag r ≠ TYPE_DELETED) ∧ o = recsLen pre)
    ∧ (∃ pre post, rs = pre ++ post ∧
        (∀ r ∈ pre, recTag r = TYPE_DELETED ∨ recTag r = TYPE_CONTINUED) ∧
        firstNonDelOff rs = recsLen pre ∧
        ((post = [] ∧ m (ms + firstNonDelOff rs) = TYPE_END) ∨
          ∃ r post2, post = r :: post2 ∧ recTag r = TYPE_VALID_MACRO)) := by
  refine ⟨find_next_deleted_spec m rs ms fuel hwf hf,
    find_next_nondeleted_spec m rs ms fuel hwf hf, ?_, firstDeletedOff_none,
    ?_, ?_⟩
  · rw [find_next_nondeleted_spec m rs ms fuel hwf hf]
    have := firstNonDelOff_le rs
    omega
  · intro o ho
    obtain ⟨pre, d, post, rfl, hdd, hpre, rfl⟩ := firstDeletedOff_some ho
    refine ⟨?_, pre, d, post, rfl, hdd, hpre, rfl⟩
    rw [recsLen_append, recsLen_cons]
    have := recLen_ge2 d
    omega
  · obtain ⟨pre, post, hsplit, hpre, hoff, hpost⟩ := firstNonDelOff_split rs
    refine ⟨pre, post, hsplit, hpre, hoff, ?_⟩
    rcases hpost with rfl | hex
    · left
      refine ⟨rfl, ?_⟩
      rw [hsplit] at hwf
      have hdrop := WFarea_drop hwf
      rw [hoff]
      exact WFarea_nil hdrop
    · right
      exact hex

/-- Witness for C6 on the concrete area
`[ValidMacro [10,11,12], Deleted [20], ValidMacro [30,31], Deleted [], End]`
laid out from address 5. -/
theorem c6_navigator_witness :
    (WFarea
      (memL ([9, 9, 9, 9, 9] ++
        [1, 5, 10, 11, 12, 0, 3, 20, 1, 4, 30, 31, 0, 2, 255])) 5
      [MacroRec.mac [10, 11, 12], MacroRec.del [20], MacroRec.mac [30, 31],
        MacroRec.del []] ∧
      ([MacroRec.mac [10, 11, 12], MacroRec.del [20], MacroRec.mac [30, 31],
        MacroRec.del []] : List MacroRec).length + 1 ≤ 6) ∧
    find_next_deleted
      (memL ([9, 9, 9, 9, 9] ++
        [1, 5, 10, 11, 12, 0, 3, 20, 1, 4, 30, 31, 0, 2, 255])) 6 5 = 10 ∧
    find_next_nondeleted
      (memL ([9, 9, 9, 9, 9] ++
        [1, 5, 10, 11, 12, 0, 3, 20, 1, 4, 30, 31, 0, 2, 255])) 6 5 = 5 := by
  have h := c6_navigator
    (memL ([9, 9, 9, 9, 9] ++
      [1, 5, 10, 11, 12, 0, 3, 20, 1, 4, 30, 31, 0, 2, 255])) 5 6
    [MacroRec.mac [10, 11, 12], MacroRec.del [20], MacroRec.mac [30, 31],
      MacroRec.del []] (by decide) (by decide)
  refine ⟨⟨by decide, by decide⟩, ?_, ?_⟩
  · rw [h.1]
    decide
  · rw [h.2.1]
    decide

/-- C5: Lookup correctness and sentinel: on a well-formed macro area laid
out from `EEMEM_MACROS_START = start + 5`, `find_key_action` returns the
address of the first `ValidMacro` record whose decoded trigger equals `k`
in all four fields (`findSpec` — `Deleted`/`Continued` records are skipped
without a trigger comparison), or the sentinel `0` when it reaches the
`End` record; the sentinel is distinct from every real record address,
because every record address is at least `start + 5 > 0`. -/
theorem c5_lookup (st : Nat) (m : Mem) (k : key_action_t)
    (rs : List MacroRec) (rfuel fuel : Nat)
    (hwf : WFarea m (EEMEM_MACROS_START st) rs)
    (hf : rs.length + 1 ≤ fuel) :
    find_key_action m k rfuel fuel (EEMEM_MACROS_START st)
      = findSpec m k rfuel (EEMEM_MACROS_START st) rs
    ∧ (∀ b ∈ boundaries (EEMEM_MACROS_START st) rs, 0 < b)
    ∧ EEMEM_MACROS_START st ≠ 0 := by
  refine ⟨find_key_action_spec m k rfuel rs (EEMEM_MACROS_START st) fuel hwf
    hf, ?_, ?_⟩
  · intro b hb
    have := boundaries_ge rs (EEMEM_MACROS_START st) b hb
    simp only [EEMEM_MACROS_START] at this
    omega
  · simp [EEMEM_MACROS_START]

/-- Witness for C5 on the concrete area of the C6 witness, searching for
the trigger decoded from bytes `[10, ...]` (hit at address 5) . -/
theorem c5_lookup_witness :
    (WFarea
      (memL ([9, 9, 9, 9, 9] ++
        [1, 5, 10, 11, 12, 0, 3, 20, 1, 4, 30, 31, 0, 2, 255]))
      (EEMEM_MACROS_START 0)
      [MacroRec.mac [10, 11, 12], MacroRec.del [20], MacroRec.mac [30, 31],
        MacroRec.del []] ∧
      ([MacroRec.mac [10, 11, 12], MacroRec.del [20], MacroRec.mac [30, 31],
        MacroRec.del []] : List MacroRec).length + 1 ≤ 6) ∧
    find_key_action
      (memL ([9, 9, 9, 9, 9] ++
        [1, 5, 10, 11, 12, 0, 3, 20, 1, 4, 30, 31, 0, 2, 255]))
      ⟨false, 0, 2, 2⟩ 3 6 (EEMEM_MACROS_START 0) = 5 := by
  refine ⟨⟨by decide, by decide⟩, ?_⟩
  have h := c5_lookup 0
    (memL ([9, 9, 9, 9, 9] ++
      [1, 5, 10, 11, 12, 0, 3, 20, 1, 4, 30, 31, 0, 2, 255]))
    ⟨false, 0, 2, 2⟩
    [MacroRec.mac [10, 11, 12], MacroRec.del [20], MacroRec.mac [30, 31],
      MacroRec.del []] 3 6 (by decide) (by decide)
  rw [h.1]
  decide

/-! ## Record-chain segments -/

theorem chainSeg_le {P : Nat → Prop} {M : Mem} : ∀ {a b : Nat},
    ChainSeg P M a b → a ≤ b := by
  intro a b h
  induction h with
  | nil => omega
  | cons a b hP hlen htail ih => omega

theorem chainSeg_trans {P : Nat → Prop} {M : Mem} : ∀ {a b c : Nat},
    ChainSeg P M a b → ChainSeg P M b c → ChainSeg P M a c := by
  intro a b c h1 h2
  induction h1 with
  | nil => exact h2
  | cons a b hP hlen htail ih => exact ChainSeg.cons a c hP hlen (ih h2)

theorem chainSeg_mono {P Q : Nat → Prop} {M : Mem}
    (hPQ : ∀ t, P t → Q t) : ∀ {a b : Nat},
    ChainSeg P M a b → ChainSeg Q M a b := by
  intro a b h
  induction h with
  | nil => exact ChainSeg.nil _
  | cons a b hP hlen htail ih => exact ChainSeg.cons a b (hPQ _ hP) hlen ih

/-- A chain segment only depends on the bytes of its address range. -/
theorem chainSeg_congr {P : Nat → Prop} {M M' : Mem} : ∀ {a b : Nat},
    ChainSeg P M a b → (∀ x, a ≤ x → x < b → M' x = M x) →
    ChainSeg P M' a b := by
  intro a b h
  induction h with
  | nil => intro _; exact ChainSeg.nil _
  | cons a b hP hlen htail ih =>
    intro hag
    have hb : a + M (a + 1) ≤ b := chainSeg_le htail
    have ha : M' a = M a := hag a (by omega) (by omega)
    have ha1 : M' (a + 1) = M (a + 1) := hag (a + 1) (by omega) (by omega)
    refine ChainSeg.cons a b (by rw [ha]; exact hP) (by rw [ha1]; exact hlen)
      ?_
    rw [ha1]
    exact ih (fun x hx1 hx2 => hag x (by omega) hx2)

/-- Sliding a chain segment down by `g` addresses: if the bytes of the
segment appear `g` addresses lower in `M'`, the chain does too. -/
theorem chainSeg_translate {P : Nat → Prop} {M M' : Mem} {g : Nat} :
    ∀ {a b : Nat}, ChainSeg P M a b → g ≤ a →
    (∀ x, a ≤ x → x < b → M' (x - g) = M x) →
    ChainSeg P M' (a - g) (b - g) := by
  intro a b h
  induction h with
  | nil => intro _ _; exact ChainSeg.nil _
  | cons a b hP hlen htail ih =>
    intro hg hag
    have hb : a + M (a + 1) ≤ b := chainSeg_le htail
    have ha : M' (a - g) = M a := hag a (by omega) (by omega)
    have ha1 : M' (a - g + 1) = M (a + 1) := by
      rw [show a - g + 1 = a + 1 - g by omega]
      exact hag (a + 1) (by omega) (by omega)
    refine ChainSeg.cons (a - g) (b - g) (by rw [ha]; exact hP)
      (by rw [ha1]; exact hlen) ?_
    rw [ha1, show a - g + M (a + 1) = a + M (a + 1) - g by omega]
    exact ih (by omega) (fun x hx1 hx2 => hag x (by omega) hx2)

/-- The records of a well-formed area prefix form a chain segment, for any
tag predicate satisfied by their tags. -/
theorem WFarea_chainSeg {P : Nat → Prop} :
    ∀ (pre post : List MacroRec) (m : Mem) (b : Nat),
    WFarea m b (pre ++ post) → (∀ r ∈ pre, P (recTag r)) →
    ChainSeg P m b (b + recsLen pre) := by
  intro pre
  induction pre with
  | nil =>
    intro post m b _ _
    rw [show b + recsLen [] = b by simp [recsLen]]
    exact ChainSeg.nil b
  | cons r pre ih =>
    intro post m b hwf hP
    obtain ⟨htag, hlen, -, -, hwf'⟩ := WFarea_cons hwf
    refine ChainSeg.cons _ _ (by rw [htag]; exact hP r (by simp))
      (by rw [hlen]; exact recLen_ge2 r) ?_
    rw [hlen, recsLen_cons,
      show b + (recLen r + recsLen pre) = b + recLen r + recsLen pre by omega]
    exact ih post m (b + recLen r) hwf' (fun x hx => hP x (by simp [hx]))

/-- A whole well-formed area parses as a chain of non-`End` records ending
at the `End` byte. -/
theorem WFarea_validArea {m : Mem} {ms : Nat} {rs : List MacroRec}
    (hwf : WFarea m ms rs) :
    ChainSeg RecTagP m ms (ms + recsLen rs) ∧
      m (ms + recsLen rs) = TYPE_END := by
  constructor
  · exact WFarea_chainSeg rs [] m ms (by simpa using hwf)
      (fun r _ => recTag_ne_end r)
  · have := WFarea_drop
      (show WFarea m ms (rs ++ []) from by simpa using hwf)
    exact WFarea_nil this

/-- Stepping a `find_next_deleted` scan over a live chain: no deleted
record is found before the terminal `End`. -/
theorem live_chain_no_deleted {M : Mem} : ∀ {a e : Nat},
    ChainSeg LiveTag M a e → M e = TYPE_END →
    ∃ f0, ∀ f, f0 ≤ f → find_next_deleted M f a = 0 := by
  intro a e h
  induction h with
  | nil =>
    intro hend
    refine ⟨1, fun f hf => ?_⟩
    obtain ⟨f', rfl⟩ : ∃ f', f = f' + 1 := ⟨f - 1, by omega⟩
    rw [find_next_deleted, if_pos hend]
  | cons a e hP hlen htail ih =>
    intro hend
    obtain ⟨f0, hf0⟩ := ih hend
    refine ⟨f0 + 1, fun f hf => ?_⟩
    obtain ⟨f', rfl⟩ : ∃ f', f = f' + 1 := ⟨f - 1, by omega⟩
    have h1 : M a ≠ TYPE_END := by
      rcases hP with h | h <;> rw [h] <;>
        simp [TYPE_VALID_MACRO, TYPE_CONTINUED, TYPE_END]
    have h2 : M a ≠ TYPE_DELETED := by
      rcases hP with h | h <;> rw [h] <;>
        simp [TYPE_VALID_MACRO, TYPE_CONTINUED, TYPE_DELETED]
    rw [find_next_deleted, if_neg h1, if_neg h2]
    exact hf0 f' (by omega)

/-! ## Operation queues: ranges and prefixes -/

/-- The op writes only addresses in `[lo, hi)`. -/
def OpIn (lo hi : Nat) : Op → Prop
  | Op.wr a _ => lo ≤ a ∧ a < hi
  | Op.cp d _ l => lo ≤ d ∧ d + l ≤ hi

theorem applyOp_outside {lo hi : Nat} {op : Op} (h : OpIn lo hi op)
    (m : Mem) (x : Nat) (hx : x < lo ∨ hi ≤ x) : applyOp m op x = m x := by
  cases op with
  | wr a v =>
    obtain ⟨h1, h2⟩ := h
    simp only [applyOp]
    rw [if_neg (by omega)]
  | cp d s l =>
    obtain ⟨h1, h2⟩ := h
    simp only [applyOp]
    rw [if_neg (by omega)]

theorem applyOps_outside {lo hi : Nat} : ∀ {ops : List Op},
    (∀ op ∈ ops, OpIn lo hi op) → ∀ (m : Mem) (x : Nat),
    (x < lo ∨ hi ≤ x) → applyOps m ops x = m x := by
  intro ops
  induction ops with
  | nil => intro _ m x _; rfl
  | cons op ops ih =>
    intro h m x hx
    have : applyOps m (op :: ops) = applyOps (applyOp m op) ops := rfl
    rw [this, ih (fun o ho => h o (by simp [ho])) (applyOp m op) x hx,
      applyOp_outside (h op (by simp)) m x hx]

theorem applyOps_append (m : Mem) (xs ys : List Op) :
    applyOps m (xs ++ ys) = applyOps (applyOps m xs) ys := by
  simp [applyOps, List.foldl_append]

theorem applyOps_wr (m : Mem) (a v : Nat) (x : Nat) :
    applyOp m (Op.wr a v) x = if x = a then v else m x := rfl

theorem Pre_nil (q : List Op) : Pre [] q := ⟨q, rfl⟩

theorem Pre_self (q : List Op) : Pre q q := ⟨[], by simp⟩

theorem Pre_mem {p q : List Op} (h : Pre p q) {op : Op} (hm : op ∈ p) :
    op ∈ q := by
  obtain ⟨r, rfl⟩ := h
  exact List.mem_append.mpr (Or.inl hm)

theorem Pre_append_cases {p : List Op} : ∀ {xs ys : List Op},
    Pre p (xs ++ ys) →
    Pre p xs ∨ ∃ q, p = xs ++ q ∧ Pre q ys := by
  intro xs
  induction xs generalizing p with
  | nil => intro ys h; exact Or.inr ⟨p, by simp, h⟩
  | cons x xs ih =>
    intro ys h
    cases p with
    | nil => exact Or.inl (Pre_nil _)
    | cons a p' =>
      obtain ⟨r, hr⟩ := h
      simp only [List.cons_append, List.cons.injEq] at hr
      obtain ⟨rfl, hr'⟩ := hr
      rcases ih ⟨r, hr'⟩ with hl | ⟨q, rfl, hq⟩
      · obtain ⟨r2, hr2⟩ := hl
        exact Or.inl ⟨r2, by simp [hr2]⟩
      · exact Or.inr ⟨q, by simp, hq⟩

theorem Pre_single {p : List Op} {op : Op} (h : Pre p [op]) :
    p = [] ∨ p = [op] := by
  obtain ⟨r, hr⟩ := h
  cases p with
  | nil => exact Or.inl rfl
  | cons a p' =>
    simp only [List.cons_append, List.cons.injEq] at hr
    obtain ⟨rfl, hr'⟩ := hr
    have : p' = [] := by
      cases p' with
      | nil => rfl
      | cons b p'' => simp at hr'
    exact Or.inr (by rw [this])

/-! ## The copy loop -/

theorem copy_chunks_snd : ∀ (F t1 c1 nxt : Nat), nxt - c1 ≤ F →
    (copy_chunks F t1 c1 nxt).2 = t1 + (nxt - c1) := by
  intro F
  induction F with
  | zero => intro t1 c1 nxt h; simp [copy_chunks]; omega
  | succ F ih =>
    intro t1 c1 nxt h
    by_cases h0 : nxt - c1 = 0
    · simp [copy_chunks, h0]
    · simp only [copy_chunks, if_neg h0]
      rw [ih (t1 + min (nxt - c1) 255) (c1 + min (nxt - c1) 255) nxt
        (by omega)]
      omega

theorem copy_chunks_opIn : ∀ (F t1 c1 nxt : Nat), nxt - c1 ≤ F →
    ∀ op ∈ (copy_chunks F t1 c1 nxt).1,
      OpIn t1 (t1 + (nxt - c1)) op ∧ ∃ d s l, op = Op.cp d s l := by
  intro F
  induction F with
  | zero => intro t1 c1 nxt h op hop; simp [copy_chunks] at hop
  | succ F ih =>
    intro t1 c1 nxt h op hop
    by_cases h0 : nxt - c1 = 0
    · simp [copy_chunks, h0] at hop
    · simp only [copy_chunks, if_neg h0, List.mem_cons] at hop
      rcases hop with rfl | hop
      · refine ⟨?_, _, _, _, rfl⟩
        simp only [OpIn]
        omega
      · have := ih (t1 + min (nxt - c1) 255) (c1 + min (nxt - c1) 255) nxt
          (by omega) op hop
        obtain ⟨hin, hcp⟩ := this
        obtain ⟨d, src, l, rfl⟩ := hcp
        simp only [OpIn] at hin ⊢
        constructor
        · omega
        · exact ⟨_, _, _, rfl⟩

/-- Applying the queued copies of `copy_chunks`: the destination window
`[t1, t1 + (nxt - c1))` receives the bytes that sat `c1 - t1` addresses
higher, everything else is untouched.  Needs `t1 < c1` (the compactor
always slides data down), which makes every chunk's source lie beyond all
previously written destinations. -/
theorem copy_chunks_apply : ∀ (F t1 c1 nxt : Nat) (M : Mem), t1 < c1 →
    nxt - c1 ≤ F → ∀ x,
    applyOps M (copy_chunks F t1 c1 nxt).1 x =
      if t1 ≤ x ∧ x < t1 + (nxt - c1) then M (x + (c1 - t1)) else M x := by
  intro F
  induction F with
  | zero =>
    intro t1 c1 nxt M hgap h x
    have h0 : nxt - c1 = 0 := by omega
    have he : (copy_chunks 0 t1 c1 nxt).1 = [] := rfl
    rw [he, h0]
    show M x = _
    rw [if_neg (by omega)]
  | succ F ih =>
    intro t1 c1 nxt M hgap h x
    by_cases h0 : nxt - c1 = 0
    · have he : (copy_chunks (F + 1) t1 c1 nxt).1 = [] := by
        simp [copy_chunks, h0]
      rw [he, h0]
      show M x = _
      rw [if_neg (by omega)]
    · simp only [copy_chunks, if_neg h0]
      set len := min (nxt - c1) 255 with hlen
      have hlen1 : 1 ≤ len := by omega
      have hstep : applyOps M (Op.cp t1 c1 len :: (copy_chunks F (t1 + len)
          (c1 + len) nxt).1) x = applyOps (applyOp M (Op.cp t1 c1 len))
          (copy_chunks F (t1 + len) (c1 + len) nxt).1 x := rfl
      rw [hstep, ih (t1 + len) (c1 + len) nxt _ (by omega) (by omega) x]
      set M1 := applyOp M (Op.cp t1 c1 len) with hM1
      have hM1val : ∀ y, M1 y = if t1 ≤ y ∧ y < t1 + len
          then M (c1 + (y - t1)) else M y := fun y => rfl
      by_cases hx1 : t1 + len ≤ x ∧ x < t1 + len + (nxt - (c1 + len))
      · rw [if_pos hx1, if_pos (by omega)]
        rw [hM1val]
        rw [if_neg (by omega)]
        congr 1
        omega
      · rw [if_neg hx1, hM1val]
        by_cases hx2 : t1 ≤ x ∧ x < t1 + len
        · rw [if_pos hx2, if_pos (by omega)]
          congr 1
          omega
        · rw [if_neg hx2, if_neg (by omega)]

theorem copy_chunks_zero {nxt c1 : Nat} (h : nxt - c1 = 0) (F t1 : Nat) :
    copy_chunks F t1 c1 nxt = ([], t1) := by
  cases F <;> simp [copy_chunks, h]

theorem compress_loop_stop (m : Mem) (nem sfuel f t : Nat) :
    compress_loop m nem sfuel f t nem = [] := by
  cases f <;> simp [compress_loop]

theorem compress_loop_eq (m : Mem) (nem sfuel lf t_o next : Nat)
    (h : next ≠ nem) :
    compress_loop m nem sfuel (lf + 1) t_o next =
      (copy_chunks nem (t_o + 1) (find_next_nondeleted m sfuel next + 1)
        (if find_next_deleted m sfuel
            (find_next_nondeleted m sfuel next) = 0 then nem
          else find_next_deleted m sfuel
            (find_next_nondeleted m sfuel next))).1 ++
      ((if (if find_next_deleted m sfuel
              (find_next_nondeleted m sfuel next) = 0 then nem
            else find_next_deleted m sfuel
              (find_next_nondeleted m sfuel next)) ≠ nem
        then [Op.wr (copy_chunks nem (t_o + 1)
          (find_next_nondeleted m sfuel next + 1)
          (if find_next_deleted m sfuel
              (find_next_nondeleted m sfuel next) = 0 then nem
            else find_next_deleted m sfuel
              (find_next_nondeleted m sfuel next))).2 TYPE_END]
        else []) ++
      ([Op.wr t_o (m (find_next_nondeleted m sfuel next))] ++
        compress_loop m nem sfuel lf
          (copy_chunks nem (t_o + 1)
            (find_next_nondeleted m sfuel next + 1)
            (if find_next_deleted m sfuel
                (find_next_nondeleted m sfuel next) = 0 then nem
              else find_next_deleted m sfuel
                (find_next_nondeleted m sfuel next))).2
          (if find_next_deleted m sfuel
              (find_next_nondeleted m sfuel next) = 0 then nem
            else find_next_deleted m sfuel
              (find_next_nondeleted m sfuel next)))) := by
  rw [compress_loop, if_neg h]
  simp only [List.append_assoc]

theorem liveTag_ne_end {t : Nat} (h : LiveTag t) : t ≠ TYPE_END := by
  rcases h with h | h <;> rw [h] <;>
    simp [TYPE_VALID_MACRO, TYPE_CONTINUED, TYPE_END]

theorem recsLen_pos {pre : List MacroRec} (h : pre ≠ []) :
    2 ≤ recsLen pre := by
  cases pre with
  | nil => exact absurd rfl h
  | cons r pre =>
    rw [recsLen_cons]
    have := recLen_ge2 r
    omega

/-- Prefixes of operation queues whose writes all lie strictly above the
current chain terminator `t_o` preserve the compacted chain and its
provisional `End` byte. -/
theorem good_of_bounded {M : Mem} {ms t_o EndA hi : Nat} {ops : List Op}
    (hchain : ChainSeg LiveTag M ms t_o) (hend : M t_o = TYPE_END)
    (hbound : t_o ≤ EndA) (hops : ∀ op ∈ ops, OpIn (t_o + 1) hi op) :
    ∃ e, ChainSeg LiveTag (applyOps M ops) ms e ∧
      applyOps M ops e = TYPE_END ∧ e ≤ EndA := by
  refine ⟨t_o, ?_, ?_, hbound⟩
  · exact chainSeg_congr hchain
      (fun x hx1 hx2 => applyOps_outside hops M x (by omega))
  · rw [applyOps_outside hops M t_o (by omega)]
    exact hend

/-- Main invariant of `compress`'s copy loop.  At the top of every loop
iteration: the original memory `m` holds the remaining records `rest` at
the read boundary `next` (with the area's `End` record at `EndA` and the
write frontier `new_end_macro = EndA + 1`); the memory-with-queue-applied
`M` agrees with `m` beyond the write cursor `t_o` and holds a compacted
live chain from `ms` terminated by a provisional `End` byte at `t_o`; and
the write cursor stays at least one tombstone (2 bytes) behind the read
boundary.  Conclusion: after applying any prefix of the operations the
loop will enqueue, the memory still parses from `ms` as a live record
chain ending in an `End` byte at or before `EndA`. -/
theorem compress_loop_good : ∀ (lfuel : Nat) (rest : List MacroRec)
    (m M : Mem) (ms EndA t_o next sfuel : Nat),
    WFarea m next rest → next + recsLen rest = EndA →
    rest.length + 1 ≤ sfuel → rest.length + 1 ≤ lfuel →
    (∀ x, t_o < x → M x = m x) →
    ChainSeg LiveTag M ms t_o → M t_o = TYPE_END → t_o + 2 ≤ next →
    ∀ p, Pre p (compress_loop m (EndA + 1) sfuel lfuel t_o next) →
      ∃ e, ChainSeg LiveTag (applyOps M p) ms e ∧
        applyOps M p e = TYPE_END ∧ e ≤ EndA := by
  intro lfuel
  induction lfuel with
  | zero =>
    intro rest m M ms EndA t_o next sfuel _ _ _ hlf
    omega
  | succ lf ih =>
    intro rest m M ms EndA t_o next sfuel hwf hsum hsf hlf hagree hchain hend
      hgap p hp
    have hnextEnd : next ≤ EndA := by
      have : 0 ≤ recsLen rest := Nat.zero_le _
      omega
    have hne : next ≠ EndA + 1 := by omega
    have hnn : find_next_nondeleted m sfuel next
        = next + firstNonDelOff rest :=
      find_next_nondeleted_spec m rest next sfuel hwf (by omega)
    obtain ⟨preC, rest1, hsplitC, hpreC, hoffC, hpostC⟩ :=
      firstNonDelOff_split rest
    have hwf1 : WFarea m (next + firstNonDelOff rest) rest1 := by
      rw [hoffC]
      exact WFarea_drop (by rw [← hsplitC]; exact hwf)
    have hlen1 : rest1.length ≤ rest.length := by
      rw [hsplitC]
      simp
    have hrecs1 : next + firstNonDelOff rest + recsLen rest1 = EndA := by
      have h2 : recsLen rest = recsLen preC + recsLen rest1 := by
        rw [hsplitC, recsLen_append]
      rw [hoffC]
      omega
    rcases hpostC with rfl | ⟨r1, rest1', hrest1, htag1⟩
    · -- the span scan stopped at the `End` record
      have ht_c : next + firstNonDelOff rest = EndA := by
        simpa [recsLen] using hrecs1
      have hwfE : WFarea m EndA [] := by
        rw [← ht_c]
        exact hwf1
      have hmE : m EndA = TYPE_END := WFarea_nil hwfE
      have hfd : find_next_deleted m sfuel EndA = 0 := by
        have := find_next_deleted_spec m [] EndA sfuel hwfE
          (by simp at hsf ⊢; omega)
        simpa [firstDeletedOff] using this
      have hO : compress_loop m (EndA + 1) sfuel (lf + 1) t_o next
          = [Op.wr t_o TYPE_END] := by
        rw [compress_loop_eq m (EndA + 1) sfuel lf t_o next hne, hnn, ht_c,
          hfd]
        simp [copy_chunks_zero (show EndA + 1 - (EndA + 1) = 0 by omega),
          compress_loop_stop, hmE]
      rw [hO] at hp
      have hap : ∀ x, applyOps M [Op.wr t_o TYPE_END] x
          = if x = t_o then TYPE_END else M x := fun x => rfl
      rcases Pre_single hp with rfl | rfl
      · exact ⟨t_o, hchain, hend, by omega⟩
      · refine ⟨t_o, ?_, ?_, by omega⟩
        · exact chainSeg_congr hchain
            (fun x hx1 hx2 => by rw [hap, if_neg (by omega)])
        · rw [hap, if_pos rfl]
    · -- the span starts at a `ValidMacro` record
      have ht_cge : next ≤ next + firstNonDelOff rest := by omega
      have hwf1' : WFarea m (next + firstNonDelOff rest) (r1 :: rest1') := by
        rw [← hrest1]
        exact hwf1
      obtain ⟨htagc, hlenc, -, -, hwfc'⟩ := WFarea_cons hwf1'
      have hmc : m (next + firstNonDelOff rest) = TYPE_VALID_MACRO := by
        rw [htagc, htag1]
      have hfd := find_next_deleted_spec m rest1
        (next + firstNonDelOff rest) sfuel hwf1 (by omega)
      cases hoD : firstDeletedOff rest1 with
      | none =>
        -- the span runs to the end of the area
        have hfd0 : find_next_deleted m sfuel
            (next + firstNonDelOff rest) = 0 := by
          rw [hfd, hoD]
        have hlive : ∀ r ∈ rest1, LiveTag (recTag r) := by
          intro r hr
          rcases recTag_cases r with h | h | h
          · exact absurd h (firstDeletedOff_none hoD r hr)
          · exact Or.inl h
          · exact Or.inr h
        have hspan : ChainSeg LiveTag m (next + firstNonDelOff rest)
            (next + firstNonDelOff rest + recsLen rest1) :=
          WFarea_chainSeg rest1 [] m _ (by simpa using hwf1) hlive
        have hmEA : m EndA = TYPE_END := by
          have := WFarea_drop
            (show WFarea m (next + firstNonDelOff rest) (rest1 ++ [])
              from by simpa using hwf1)
          have h2 := WFarea_nil this
          rwa [hrecs1] at h2
        have hL2 : 2 ≤ recsLen rest1 := by
          rw [hrest1, recsLen_cons]
          have := recLen_ge2 r1
          omega
        have hgapc : t_o + 2 ≤ next + firstNonDelOff rest := by omega
        have hO : compress_loop m (EndA + 1) sfuel (lf + 1) t_o next
            = (copy_chunks (EndA + 1) (t_o + 1)
                (next + firstNonDelOff rest + 1) (EndA + 1)).1
              ++ [Op.wr t_o (m (next + firstNonDelOff rest))] := by
          rw [compress_loop_eq m (EndA + 1) sfuel lf t_o next hne, hnn, hfd0]
          simp [compress_loop_stop]
        rw [hO] at hp
        have hcopsIn := copy_chunks_opIn (EndA + 1) (t_o + 1)
          (next + firstNonDelOff rest + 1) (EndA + 1) (by omega)
        rcases Pre_append_cases hp with hpc | ⟨q, rfl, hq⟩
        · exact good_of_bounded hchain hend (by omega)
            (fun op hop => (hcopsIn op (Pre_mem hpc hop)).1)
        · rcases Pre_single hq with rfl | rfl
          · rw [List.append_nil]
            exact good_of_bounded hchain hend (by omega)
              (fun op hop => (hcopsIn op hop).1)
          · -- the committed iteration
            have hM1 := copy_chunks_apply (EndA + 1) (t_o + 1)
              (next + firstNonDelOff rest + 1) (EndA + 1) M (by omega)
              (by omega)
            have hM3 : ∀ x, applyOps M
                ((copy_chunks (EndA + 1) (t_o + 1)
                  (next + firstNonDelOff rest + 1) (EndA + 1)).1
                  ++ [Op.wr t_o (m (next + firstNonDelOff rest))]) x
                = if x = t_o then m (next + firstNonDelOff rest)
                  else applyOps M (copy_chunks (EndA + 1) (t_o + 1)
                    (next + firstNonDelOff rest + 1) (EndA + 1)).1 x := by
              intro x
              rw [applyOps_append]
              rfl
            have hTA : ∀ x, next + firstNonDelOff rest ≤ x → x < EndA + 1 →
                applyOps M ((copy_chunks (EndA + 1) (t_o + 1)
                  (next + firstNonDelOff rest + 1) (EndA + 1)).1
                  ++ [Op.wr t_o (m (next + firstNonDelOff rest))])
                  (x - (next + firstNonDelOff rest - t_o)) = m x := by
              intro x hx1 hx2
              by_cases hxc : x = next + firstNonDelOff rest
              · rw [show x - (next + firstNonDelOff rest - t_o) = t_o
                  by omega, hM3, if_pos rfl, hxc]
              · rw [hM3, if_neg (by omega), hM1, if_pos (by omega)]
                rw [show x - (next + firstNonDelOff rest - t_o) +
                  (next + firstNonDelOff rest + 1 - (t_o + 1)) = x by omega]
                exact hagree x (by omega)
            refine ⟨t_o + (EndA - (next + firstNonDelOff rest)), ?_, ?_, ?_⟩
            · refine @chainSeg_trans _ _ _ t_o _ ?_ ?_
              · refine chainSeg_congr hchain (fun x hx1 hx2 => ?_)
                rw [hM3, if_neg (by omega), hM1, if_neg (by omega)]
              · have htr := @chainSeg_translate _ _ _
                  (next + firstNonDelOff rest - t_o) _ _ hspan (by omega)
                  (fun x hx1 hx2 => hTA x hx1 (by omega))
                rw [show next + firstNonDelOff rest -
                    (next + firstNonDelOff rest - t_o) = t_o by omega,
                  show next + firstNonDelOff rest + recsLen rest1 -
                    (next + firstNonDelOff rest - t_o)
                    = t_o + (EndA - (next + firstNonDelOff rest))
                    by omega] at htr
                exact htr
            · have := hTA EndA (by omega) (by omega)
              rw [show EndA - (next + firstNonDelOff rest - t_o)
                = t_o + (EndA - (next + firstNonDelOff rest)) by omega]
                at this
              rw [this]
              exact hmEA
            · omega
      | some o =>
        -- the span is bounded by the next deleted record
        have hfdo : find_next_deleted m sfuel (next + firstNonDelOff rest)
            = next + firstNonDelOff rest + o := by
          rw [hfd, hoD]
        obtain ⟨preD, dD, postD, hsplitD, htagD, hpreD, ho⟩ :=
          firstDeletedOff_some hoD
        have hpreDne : preD ≠ [] := by
          intro h
          rw [h] at hsplitD
          simp at hsplitD
          rw [hrest1] at hsplitD
          have : r1 = dD := by
            injection hsplitD with h1 h2
          rw [← this] at htagD
          rw [htag1] at htagD
          simp [TYPE_VALID_MACRO, TYPE_DELETED] at htagD
        have ho2 : 2 ≤ o := ho ▸ recsLen_pos hpreDne
        have hliveD : ∀ r ∈ preD, LiveTag (recTag r) := by
          intro r hr
          rcases recTag_cases r with h | h | h
          · exact absurd h (hpreD r hr)
          · exact Or.inl h
          · exact Or.inr h
        have hspan : ChainSeg LiveTag m (next + firstNonDelOff rest)
            (next + firstNonDelOff rest + o) := by
          rw [ho]
          exact WFarea_chainSeg preD (dD :: postD) m _
            (by rw [← hsplitD]; exact hwf1) hliveD
        have hr1len : recsLen rest1 = o + recLen dD + recsLen postD := by
          rw [hsplitD, recsLen_append, recsLen_cons, ho]
          omega
        have hdD2 := recLen_ge2 dD
        have hoEnd : next + firstNonDelOff rest + o + 2 ≤ EndA := by omega
        have hd0 : next + firstNonDelOff rest + o ≠ 0 := by omega
        have hsnd : (copy_chunks (EndA + 1) (t_o + 1)
            (next + firstNonDelOff rest + 1)
            (next + firstNonDelOff rest + o)).2 = t_o + o := by
          rw [copy_chunks_snd _ _ _ _ (by omega)]
          omega
        have hO : compress_loop m (EndA + 1) sfuel (lf + 1) t_o next
            = (copy_chunks (EndA + 1) (t_o + 1)
                (next + firstNonDelOff rest + 1)
                (next + firstNonDelOff rest + o)).1
              ++ ([Op.wr (t_o + o) TYPE_END]
              ++ ([Op.wr t_o (m (next + firstNonDelOff rest))]
              ++ compress_loop m (EndA + 1) sfuel lf (t_o + o)
                  (next + firstNonDelOff rest + o))) := by
          rw [compress_loop_eq m (EndA + 1) sfuel lf t_o next hne, hnn, hfdo]
          rw [if_neg hd0, if_pos (show next + firstNonDelOff rest + o
            ≠ EndA + 1 by omega), hsnd]
        rw [hO] at hp
        have hcopsIn := copy_chunks_opIn (EndA + 1) (t_o + 1)
          (next + firstNonDelOff rest + 1)
          (next + firstNonDelOff rest + o) (by omega)
        have hwin : t_o + 1 + (next + firstNonDelOff rest + o -
            (next + firstNonDelOff rest + 1)) = t_o + o := by omega
        -- pointwise value of the committed iteration
        have hM1 := copy_chunks_apply (EndA + 1) (t_o + 1)
          (next + firstNonDelOff rest + 1)
          (next + firstNonDelOff rest + o) M (by omega) (by omega)
        have hM3 : ∀ x, applyOps M
            ((copy_chunks (EndA + 1) (t_o + 1)
              (next + firstNonDelOff rest + 1)
              (next + firstNonDelOff rest + o)).1
              ++ ([Op.wr (t_o + o) TYPE_END]
              ++ [Op.wr t_o (m (next + firstNonDelOff rest))])) x
            = if x = t_o then m (next + firstNonDelOff rest)
              else if x = t_o + o then TYPE_END
              else applyOps M (copy_chunks (EndA + 1) (t_o + 1)
                (next + firstNonDelOff rest + 1)
                (next + firstNonDelOff rest + o)).1 x := by
          intro x
          rw [applyOps_append]
          rfl
        have hTA : ∀ x, next + firstNonDelOff rest ≤ x →
            x < next + firstNonDelOff rest + o →
            applyOps M ((copy_chunks (EndA + 1) (t_o + 1)
              (next + firstNonDelOff rest + 1)
              (next + firstNonDelOff rest + o)).1
              ++ ([Op.wr (t_o + o) TYPE_END]
              ++ [Op.wr t_o (m (next + firstNonDelOff rest))]))
              (x - (next + firstNonDelOff rest - t_o)) = m x := by
          intro x hx1 hx2
          by_cases hxc : x = next + firstNonDelOff rest
          · rw [show x - (next + firstNonDelOff rest - t_o) = t_o
              by omega, hM3, if_pos rfl, hxc]
          · rw [hM3, if_neg (by omega), if_neg (by omega), hM1,
              if_pos (by omega)]
            rw [show x - (next + firstNonDelOff rest - t_o) +
              (next + firstNonDelOff rest + 1 - (t_o + 1)) = x by omega]
            exact hagree x (by omega)
        have hchain3 : ChainSeg LiveTag (applyOps M
            ((copy_chunks (EndA + 1) (t_o + 1)
              (next + firstNonDelOff rest + 1)
              (next + firstNonDelOff rest + o)).1
              ++ ([Op.wr (t_o + o) TYPE_END]
              ++ [Op.wr t_o (m (next + firstNonDelOff rest))]))) ms
            (t_o + o) := by
          refine @chainSeg_trans _ _ _ t_o _ ?_ ?_
          · refine chainSeg_congr hchain (fun x hx1 hx2 => ?_)
            rw [hM3, if_neg (by omega), if_neg (by omega), hM1,
              if_neg (by omega)]
          · have htr := @chainSeg_translate _ _ _
              (next + firstNonDelOff rest - t_o) _ _ hspan (by omega)
              (fun x hx1 hx2 => hTA x hx1 hx2)
            rw [show next + firstNonDelOff rest -
                (next + firstNonDelOff rest - t_o) = t_o by omega,
              show next + firstNonDelOff rest + o -
                (next + firstNonDelOff rest - t_o) = t_o + o by omega]
              at htr
            exact htr
        have hend3 : applyOps M
            ((copy_chunks (EndA + 1) (t_o + 1)
              (next + firstNonDelOff rest + 1)
              (next + firstNonDelOff rest + o)).1
              ++ ([Op.wr (t_o + o) TYPE_END]
              ++ [Op.wr t_o (m (next + firstNonDelOff rest))])) (t_o + o)
            = TYPE_END := by
          rw [hM3, if_neg (by omega), if_pos rfl]
        rcases Pre_append_cases hp with hpc | ⟨q, rfl, hq⟩
        · exact good_of_bounded hchain hend (by omega)
            (fun op hop => (hcopsIn op (Pre_mem hpc hop)).1)
        · rcases Pre_append_cases hq with hq1 | ⟨q2, rfl, hq2⟩
          · rcases Pre_single hq1 with rfl | rfl
            · rw [List.append_nil]
              exact good_of_bounded hchain hend (by omega)
                (fun op hop => (hcopsIn op hop).1)
            · refine @good_of_bounded _ _ _ _ (t_o + o + 1) _ hchain hend
                (by omega) ?_
              intro op hop
              rcases List.mem_append.mp hop with hop | hop
              · have := (hcopsIn op hop).1
                obtain ⟨d, s, l, rfl⟩ := (hcopsIn op hop).2
                simp only [OpIn] at this ⊢
                omega
              · simp at hop
                subst hop
                simp only [OpIn]
                omega
          · rcases Pre_append_cases hq2 with hq3 | ⟨q4, rfl, hq4⟩
            · rcases Pre_single hq3 with rfl | rfl
              · refine @good_of_bounded _ _ _ _ (t_o + o + 1) _ hchain hend
                  (by omega) ?_
                intro op hop
                rw [List.append_nil] at hop
                rcases List.mem_append.mp hop with hop | hop
                · have := (hcopsIn op hop).1
                  obtain ⟨d, s, l, rfl⟩ := (hcopsIn op hop).2
                  simp only [OpIn] at this ⊢
                  omega
                · simp at hop
                  subst hop
                  simp only [OpIn]
                  omega
              · -- the committed iteration
                exact ⟨t_o + o, hchain3, hend3, by omega⟩
            · -- a prefix reaching into the next iteration
              have happ : applyOps M
                  ((copy_chunks (EndA + 1) (t_o + 1)
                    (next + firstNonDelOff rest + 1)
                    (next + firstNonDelOff rest + o)).1
                    ++ ([Op.wr (t_o + o) TYPE_END]
                    ++ ([Op.wr t_o (m (next + firstNonDelOff rest))] ++ q4)))
                  = applyOps (applyOps M
                    ((copy_chunks (EndA + 1) (t_o + 1)
                      (next + firstNonDelOff rest + 1)
                      (next + firstNonDelOff rest + o)).1
                      ++ ([Op.wr (t_o + o) TYPE_END]
                      ++ [Op.wr t_o (m (next + firstNonDelOff rest))]))) q4
                  := by
                rw [← applyOps_append]
                simp
              rw [happ]
              refine ih (dD :: postD) m _ ms EndA (t_o + o)
                (next + firstNonDelOff rest + o) sfuel ?_ ?_ ?_ ?_ ?_
                hchain3 hend3 (by omega) q4 hq4
              · have := WFarea_drop
                  (show WFarea m (next + firstNonDelOff rest)
                      (preD ++ dD :: postD)
                    from by rw [← hsplitD]; exact hwf1)
                rwa [← ho] at this
              · rw [recsLen_cons]
                omega
              · have : (dD :: postD).length + 1 ≤ rest1.length + 1 := by
                  rw [hsplitD]
                  simp only [List.length_append, List.length_cons]
                  omega
                omega
              · have hp1 : 1 ≤ preD.length := by
                  cases preD with
                  | nil => exact absurd rfl hpreDne
                  | cons a b => simp
                have h1 : (dD :: postD).length + 1 ≤ rest1.length := by
                  rw [hsplitD]
                  simp only [List.length_append, List.length_cons]
                  omega
                omega
              · intro x hx
                rw [hM3, if_neg (by omega), if_neg (by omega), hM1,
                  if_neg (by omega)]
                exact hagree x (by omega)

theorem Pre_cons {p : List Op} {op : Op} {ops : List Op}
    (h : Pre p (op :: ops)) :
    p = [] ∨ ∃ p', p = op :: p' ∧ Pre p' ops := by
  obtain ⟨r, hr⟩ := h
  cases p with
  | nil => exact Or.inl rfl
  | cons a p' =>
    simp only [List.cons_append, List.cons.injEq] at hr
    obtain ⟨rfl, hr'⟩ := hr
    exact Or.inr ⟨p', rfl, r, hr'⟩

/-- Every nonempty prefix of the write queue of `compress` on a
well-formed area leaves the macro area parsing, from `ms`, as a chain of
live records terminated by a single `End` byte at or before the old `End`
record. -/
theorem compress_prefix_live (m : Mem) (ms : Nat) (rs : List MacroRec)
    (sfuel lfuel : Nat) (hwf : WFarea m ms rs) (hms : 0 < ms)
    (hsf : rs.length + 1 ≤ sfuel) (hlf : rs.length + 1 ≤ lfuel) :
    ∀ p, Pre p (compress m ms (ms + recsLen rs + 1) sfuel lfuel) → p ≠ [] →
      ∃ e, ChainSeg LiveTag (applyOps m p) ms e ∧
        applyOps m p e = TYPE_END ∧ e ≤ ms + recsLen rs := by
  intro p hp hpne
  have hfd := find_next_deleted_spec m rs ms sfuel hwf (by omega)
  cases hoD : firstDeletedOff rs with
  | none =>
    have hC : compress m ms (ms + recsLen rs + 1) sfuel lfuel = [] := by
      rw [compress, hfd, hoD]
      simp
    rw [hC] at hp
    obtain ⟨r, hr⟩ := hp
    simp at hr
    exact absurd hr.1 hpne
  | some o =>
    obtain ⟨preL, dL, postL, hsplitL, htagL, hpreL, ho⟩ :=
      firstDeletedOff_some hoD
    have hC : compress m ms (ms + recsLen rs + 1) sfuel lfuel
        = Op.wr (ms + o) TYPE_END ::
          compress_loop m (ms + recsLen rs + 1) sfuel lfuel (ms + o)
            (find_next_nondeleted m sfuel (ms + o)) := by
      rw [compress, hfd, hoD]
      simp only [if_neg (show ¬ ms + o = 0 by omega)]
    rw [hC] at hp
    rcases Pre_cons hp with rfl | ⟨p', rfl, hp'⟩
    · exact absurd rfl hpne
    · -- set up the loop invariant at entry
      have hwfD : WFarea m (ms + o) (dL :: postL) := by
        rw [ho]
        exact WFarea_drop (by rw [← hsplitL]; exact hwf)
      have hfnnD := find_next_nondeleted_spec m (dL :: postL) (ms + o) sfuel
        hwfD (by
          have : (dL :: postL).length ≤ rs.length := by
            rw [hsplitL]
            simp
          omega)
      have hoffD : firstNonDelOff (dL :: postL)
          = recLen dL + firstNonDelOff postL := by
        rw [firstNonDelOff, if_pos (Or.inl htagL)]
      obtain ⟨preC2, rest2, hsplitC2, hpreC2, hoffC2, -⟩ :=
        firstNonDelOff_split (dL :: postL)
      have hwf2 : WFarea m (ms + o + firstNonDelOff (dL :: postL)) rest2 := by
        rw [hoffC2]
        exact WFarea_drop (by rw [← hsplitC2]; exact hwfD)
      have hsum2 : ms + o + firstNonDelOff (dL :: postL) + recsLen rest2
          = ms + recsLen rs := by
        have h1 : recsLen rs = recsLen preL + recsLen (dL :: postL) := by
          rw [hsplitL, recsLen_append]
        have h2 : recsLen (dL :: postL) = recsLen preC2 + recsLen rest2 := by
          rw [hsplitC2, recsLen_append]
        rw [hoffC2]
        omega
      have hlen2 : rest2.length ≤ rs.length := by
        have h1 : rest2.length ≤ (dL :: postL).length := by
          rw [hsplitC2]
          simp
        have h2 : (dL :: postL).length ≤ rs.length := by
          rw [hsplitL]
          simp
        omega
      have hliveL : ∀ r ∈ preL, LiveTag (recTag r) := by
        intro r hr
        rcases recTag_cases r with h | h | h
        · exact absurd h (hpreL r hr)
        · exact Or.inl h
        · exact Or.inr h
      have hchain0 : ChainSeg LiveTag m ms (ms + o) := by
        rw [ho]
        exact WFarea_chainSeg preL (dL :: postL) m ms
          (by rw [← hsplitL]; exact hwf) hliveL
      have hap0 : ∀ x, applyOps m [Op.wr (ms + o) TYPE_END] x
          = if x = ms + o then TYPE_END else m x := fun x => rfl
      have happ : applyOps m (Op.wr (ms + o) TYPE_END :: p')
          = applyOps (applyOps m [Op.wr (ms + o) TYPE_END]) p' := rfl
      rw [happ]
      have hgap0 : ms + o + 2 ≤ ms + o + firstNonDelOff (dL :: postL) := by
        have := recLen_ge2 dL
        rw [hoffD]
        omega
      have := compress_loop_good lfuel rest2 m
        (applyOps m [Op.wr (ms + o) TYPE_END]) ms (ms + recsLen rs) (ms + o)
        (ms + o + firstNonDelOff (dL :: postL)) sfuel hwf2 hsum2
        (by omega) (by omega)
        (fun x hx => by rw [hap0, if_neg (by omega)])
        (chainSeg_congr hchain0
          (fun x hx1 hx2 => by rw [hap0, if_neg (by omega)]))
        (by rw [hap0, if_pos rfl]) hgap0 p'
        (by rw [← hfnnD]; exact hp')
      exact this

/-- C2: Compaction always-parseable invariant: `compress` invoked on a
well-formed macro area (records `rs` from `ms`, one terminal `End`, write
frontier `new_end_macro = ms + recsLen rs + 1` just past it) issues a
queue of writes such that after applying any prefix, in enqueue order, the
byte sequence from `ms` still parses as a record chain of non-`End`
records terminating in exactly one `End` record, at or before the old
`End` address — in particular at the flush boundaries after the
provisional `End` write and after each per-span `End` write. -/
theorem c2_compress_always_parseable (m : Mem) (ms : Nat)
    (rs : List MacroRec) (sfuel lfuel : Nat) (hwf : WFarea m ms rs)
    (hms : 0 < ms) (hsf : rs.length + 1 ≤ sfuel)
    (hlf : rs.length + 1 ≤ lfuel) :
    ∀ p, Pre p (compress m ms (ms + recsLen rs + 1) sfuel lfuel) →
      ∃ e, ChainSeg RecTagP (applyOps m p) ms e ∧
        applyOps m p e = TYPE_END ∧ e ≤ ms + recsLen rs := by
  intro p hp
  by_cases hpne : p = []
  · subst hpne
    obtain ⟨hc, he⟩ := WFarea_validArea hwf
    exact ⟨ms + recsLen rs, hc, he, le_refl _⟩
  · obtain ⟨e, h1, h2, h3⟩ := compress_prefix_live m ms rs sfuel lfuel hwf
      hms hsf hlf p hp hpne
    exact ⟨e, chainSeg_mono (fun t ht => liveTag_ne_end ht) h1, h2, h3⟩

/-- Witness for C2 on the concrete area
`[ValidMacro [10,11,12], Deleted [20], ValidMacro [30,31], Deleted [], End]`
at `ms = 5`, taking the full write queue as the prefix. -/
theorem c2_compress_always_parseable_witness :
    (WFarea
      (memL ([9, 9, 9, 9, 9] ++
        [1, 5, 10, 11, 12, 0, 3, 20, 1, 4, 30, 31, 0, 2, 255])) 5
      [MacroRec.mac [10, 11, 12], MacroRec.del [20], MacroRec.mac [30, 31],
        MacroRec.del []] ∧
      0 < 5 ∧
      ([MacroRec.mac [10, 11, 12], MacroRec.del [20], MacroRec.mac [30, 31],
        MacroRec.del []] : List MacroRec).length + 1 ≤ 6) ∧
    (∃ e, ChainSeg RecTagP
        (applyOps
          (memL ([9, 9, 9, 9, 9] ++
            [1, 5, 10, 11, 12, 0, 3, 20, 1, 4, 30, 31, 0, 2, 255]))
          (compress
            (memL ([9, 9, 9, 9, 9] ++
              [1, 5, 10, 11, 12, 0, 3, 20, 1, 4, 30, 31, 0, 2, 255])) 5
            (5 + recsLen [MacroRec.mac [10, 11, 12], MacroRec.del [20],
              MacroRec.mac [30, 31], MacroRec.del []] + 1) 6 6)) 5 e ∧
      applyOps
        (memL ([9, 9, 9, 9, 9] ++
          [1, 5, 10, 11, 12, 0, 3, 20, 1, 4, 30, 31, 0, 2, 255]))
        (compress
          (memL ([9, 9, 9, 9, 9] ++
            [1, 5, 10, 11, 12, 0, 3, 20, 1, 4, 30, 31, 0, 2, 255])) 5
          (5 + recsLen [MacroRec.mac [10, 11, 12], MacroRec.del [20],
            MacroRec.mac [30, 31], MacroRec.del []] + 1) 6 6) e = TYPE_END ∧
      e ≤ 5 + recsLen [MacroRec.mac [10, 11, 12], MacroRec.del [20],
        MacroRec.mac [30, 31], MacroRec.del []]) :=
  ⟨⟨by decide, by decide, by decide⟩,
    c2_compress_always_parseable
      (memL ([9, 9, 9, 9, 9] ++
        [1, 5, 10, 11, 12, 0, 3, 20, 1, 4, 30, 31, 0, 2, 255])) 5
      [MacroRec.mac [10, 11, 12], MacroRec.del [20], MacroRec.mac [30, 31],
        MacroRec.del []] 6 6 (by decide) (by decide) (by decide) (by decide)
      _ (Pre_self _)⟩

/-- C8: Compaction idempotence: if the macro area contains no `Deleted`
record, `compress` issues no EEPROM writes, leaving the area byte-for-byte
unchanged; and running `compress` a second time on the result of a first
run (no intervening deletes) issues no writes, so the macro area is
byte-for-byte identical after the second run. -/
theorem c8_compress_idempotent (m : Mem) (ms : Nat) (rs : List MacroRec)
    (sfuel lfuel : Nat) (hwf : WFarea m ms rs) (hms : 0 < ms)
    (hsf : rs.length + 1 ≤ sfuel) (hlf : rs.length + 1 ≤ lfuel) :
    (firstDeletedOff rs = none →
      compress m ms (ms + recsLen rs + 1) sfuel lfuel = [] ∧
      applyOps m (compress m ms (ms + recsLen rs + 1) sfuel lfuel) = m) ∧
    ∃ f0, ∀ f2 lf2, f0 ≤ f2 →
      compress (applyOps m (compress m ms (ms + recsLen rs + 1) sfuel lfuel))
        ms (ms + recsLen rs + 1) f2 lf2 = [] ∧
      applyOps
        (applyOps m (compress m ms (ms + recsLen rs + 1) sfuel lfuel))
        (compress
          (applyOps m (compress m ms (ms + recsLen rs + 1) sfuel lfuel))
          ms (ms + recsLen rs + 1) f2 lf2)
        = applyOps m (compress m ms (ms + recsLen rs + 1) sfuel lfuel) := by
  have hfd := find_next_deleted_spec m rs ms sfuel hwf (by omega)
  constructor
  · intro hnone
    have hC : compress m ms (ms + recsLen rs + 1) sfuel lfuel = [] := by
      rw [compress, hfd, hnone]
      simp
    exact ⟨hC, by rw [hC]; rfl⟩
  · cases hoD : firstDeletedOff rs with
    | none =>
      have hC : compress m ms (ms + recsLen rs + 1) sfuel lfuel = [] := by
        rw [compress, hfd, hoD]
        simp
      refine ⟨rs.length + 1, fun f2 lf2 hf2 => ?_⟩
      have hM1 : applyOps m (compress m ms (ms + recsLen rs + 1) sfuel lfuel)
          = m := by
        rw [hC]
        rfl
      have hfd2 := find_next_deleted_spec m rs ms f2 hwf (by omega)
      have hC2 : compress m ms (ms + recsLen rs + 1) f2 lf2 = [] := by
        rw [compress, hfd2, hoD]
        simp
      rw [hM1, hC2]
      exact ⟨rfl, rfl⟩
    | some o =>
      have hCne : compress m ms (ms + recsLen rs + 1) sfuel lfuel ≠ [] := by
        rw [compress, hfd, hoD]
        simp only [if_neg (show ¬ ms + o = 0 by omega)]
        simp
      obtain ⟨e, hlive, hend, -⟩ := compress_prefix_live m ms rs sfuel lfuel
        hwf hms hsf hlf _ (Pre_self _) hCne
      obtain ⟨f0, hf0⟩ := live_chain_no_deleted hlive hend
      refine ⟨f0, fun f2 lf2 hf2 => ?_⟩
      have hC2 : compress
          (applyOps m (compress m ms (ms + recsLen rs + 1) sfuel lfuel)) ms
          (ms + recsLen rs + 1) f2 lf2 = [] := by
        rw [compress, hf0 f2 hf2]
        simp
      rw [hC2]
      exact ⟨rfl, rfl⟩

/-- Witness for C8 on the concrete area of the C2 witness. -/
theorem c8_compress_idempotent_witness :
    (WFarea
      (memL ([9, 9, 9, 9, 9] ++
        [1, 5, 10, 11, 12, 0, 3, 20, 1, 4, 30, 31, 0, 2, 255])) 5
      [MacroRec.mac [10, 11, 12], MacroRec.del [20], MacroRec.mac [30, 31],
        MacroRec.del []] ∧ 0 < 5) ∧
    ((firstDeletedOff [MacroRec.mac [10, 11, 12], MacroRec.del [20],
        MacroRec.mac [30, 31], MacroRec.del []] = none →
      compress
        (memL ([9, 9, 9, 9, 9] ++
          [1, 5, 10, 11, 12, 0, 3, 20, 1, 4, 30, 31, 0, 2, 255])) 5
        (5 + recsLen [MacroRec.mac [10, 11, 12], MacroRec.del [20],
          MacroRec.mac [30, 31], MacroRec.del []] + 1) 6 6 = [] ∧
      applyOps
        (memL ([9, 9, 9, 9, 9] ++
          [1, 5, 10, 11, 12, 0, 3, 20, 1, 4, 30, 31, 0, 2, 255]))
        (compress
          (memL ([9, 9, 9, 9, 9] ++
            [1, 5, 10, 11, 12, 0, 3, 20, 1, 4, 30, 31, 0, 2, 255])) 5
          (5 + recsLen [MacroRec.mac [10, 11, 12], MacroRec.del [20],
            MacroRec.mac [30, 31], MacroRec.del []] + 1) 6 6)
        = memL ([9, 9, 9, 9, 9] ++
          [1, 5, 10, 11, 12, 0, 3, 20, 1, 4, 30, 31, 0, 2, 255])) ∧
    ∃ f0, ∀ f2 lf2, f0 ≤ f2 →
      compress (applyOps
          (memL ([9, 9, 9, 9, 9] ++
            [1, 5, 10, 11, 12, 0, 3, 20, 1, 4, 30, 31, 0, 2, 255]))
          (compress
            (memL ([9, 9, 9, 9, 9] ++
              [1, 5, 10, 11, 12, 0, 3, 20, 1, 4, 30, 31, 0, 2, 255])) 5
            (5 + recsLen [MacroRec.mac [10, 11, 12], MacroRec.del [20],
              MacroRec.mac [30, 31], MacroRec.del []] + 1) 6 6))
        5 (5 + recsLen [MacroRec.mac [10, 11, 12], MacroRec.del [20],
          MacroRec.mac [30, 31], MacroRec.del []] + 1) f2 lf2 = [] ∧
      applyOps
        (applyOps
          (memL ([9, 9, 9, 9, 9] ++
            [1, 5, 10, 11, 12, 0, 3, 20, 1, 4, 30, 31, 0, 2, 255]))
          (compress
            (memL ([9, 9, 9, 9, 9] ++
              [1, 5, 10, 11, 12, 0, 3, 20, 1, 4, 30, 31, 0, 2, 255])) 5
            (5 + recsLen [MacroRec.mac [10, 11, 12], MacroRec.del [20],
              MacroRec.mac [30, 31], MacroRec.del []] + 1) 6 6))
        (compress
          (applyOps
            (memL ([9, 9, 9, 9, 9] ++
              [1, 5, 10, 11, 12, 0, 3, 20, 1, 4, 30, 31, 0, 2, 255]))
            (compress
              (memL ([9, 9, 9, 9, 9] ++
                [1, 5, 10, 11, 12, 0, 3, 20, 1, 4, 30, 31, 0, 2, 255])) 5
              (5 + recsLen [MacroRec.mac [10, 11, 12], MacroRec.del [20],
                MacroRec.mac [30, 31], MacroRec.del []] + 1) 6 6))
          5 (5 + recsLen [MacroRec.mac [10, 11, 12], MacroRec.del [20],
            MacroRec.mac [30, 31], MacroRec.del []] + 1) f2 lf2)
        = applyOps
          (memL ([9, 9, 9, 9, 9] ++
            [1, 5, 10, 11, 12, 0, 3, 20, 1, 4, 30, 31, 0, 2, 255]))
          (compress
            (memL ([9, 9, 9, 9, 9] ++
              [1, 5, 10, 11, 12, 0, 3, 20, 1, 4, 30, 31, 0, 2, 255])) 5
            (5 + recsLen [MacroRec.mac [10, 11, 12], MacroRec.del [20],
              MacroRec.mac [30, 31], MacroRec.del []] + 1) 6 6)) :=
  ⟨⟨by decide, by decide⟩,
    c8_compress_idempotent
      (memL ([9, 9, 9, 9, 9] ++
        [1, 5, 10, 11, 12, 0, 3, 20, 1, 4, 30, 31, 0, 2, 255])) 5
      [MacroRec.mac [10, 11, 12], MacroRec.del [20], MacroRec.mac [30, 31],
        MacroRec.del []] 6 6 (by decide) (by decide) (by decide) (by decide)⟩

/-! ## The concrete copy performed by one compaction of
`[Valid, Deleted, Valid, Deleted, End]` -/

theorem copy_chunks_one (F t1 c1 nxt : Nat) (h1 : c1 < nxt)
    (h2 : nxt - c1 ≤ 255) (hF : 2 ≤ F) :
    copy_chunks F t1 c1 nxt = ([Op.cp t1 c1 (nxt - c1)], t1 + (nxt - c1)) := by
  obtain ⟨F', rfl⟩ : ∃ F', F = F' + 1 := ⟨F - 1, by omega⟩
  simp only [copy_chunks, if_neg (show ¬(nxt - c1 = 0) by omega)]
  have hmin : min (nxt - c1) 255 = nxt - c1 := by omega
  rw [hmin, copy_chunks_zero (show nxt - (c1 + (nxt - c1)) = 0 by omega)]

/-- Transport of an `agrees` fact along a pointwise byte-copy: if `M'`
holds at `a' + i` whatever `m` holds at `a + i`, the byte list read at `a`
in `m` is read at `a'` in `M'`. -/
theorem agrees_of_shift {m M : Mem} : ∀ {bs : List Nat} {a a' : Nat},
    agrees m a bs → (∀ i, i < bs.length → M (a' + i) = m (a + i)) →
    agrees M a' bs := by
  intro bs
  induction bs with
  | nil => intro a a' _ _; trivial
  | cons b bs ih =>
    intro a a' h hsh
    rw [agrees_cons] at h ⊢
    obtain ⟨h1, h2⟩ := h
    refine ⟨?_, ?_⟩
    · have h0 := hsh 0 (by simp)
      simp only [Nat.add_zero] at h0
      exact h0.trans h1
    · refine ih h2 (fun i hi => ?_)
      have := hsh (i + 1) (by simp only [List.length_cons]; omega)
      rwa [show a' + (i + 1) = a' + 1 + i by omega,
        show a + (i + 1) = a + 1 + i by omega] at this

theorem agrees_recBytes {m : Mem} {a : Nat} {r : MacroRec}
    (h1 : m a = recTag r) (h2 : m (a + 1) = recLen r)
    (h3 : agrees m (a + 2) (recPayload r)) :
    agrees m a (recBytes r) := by
  rw [recBytes, agrees_cons, agrees_cons]
  exact ⟨h1, h2, by rwa [show a + 1 + 1 = a + 2 by omega]⟩

/-- C3: Compaction preserves live data and order: on a well-formed macro
area `[A(ValidMacro), B(Deleted), C(ValidMacro), D(Deleted), End]` with
the write frontier just past `End`, after `compress` completes and all
queued writes are applied the macro area begins `[A, C, End]`: it is again
well formed with exactly the records `[A, C]`, `A`'s bytes (tag, length,
payload) are unchanged in place, `C`'s bytes are moved down contiguously
right after `A` (so `A` precedes `C` and no `length` byte is altered),
and the `End` byte follows. -/
theorem c3_compress_preserves (m : Mem) (ms : Nat) (pa pb pc pd : List Nat)
    (sfuel lfuel : Nat)
    (hwf : WFarea m ms
      [MacroRec.mac pa, MacroRec.del pb, MacroRec.mac pc, MacroRec.del pd])
    (hms : 0 < ms) (hsf : 5 ≤ sfuel) (hlf : 5 ≤ lfuel) (M : Mem)
    (hM : M = applyOps m (compress m ms
      (ms + recsLen [MacroRec.mac pa, MacroRec.del pb, MacroRec.mac pc,
        MacroRec.del pd] + 1) sfuel lfuel)) :
    WFarea M ms [MacroRec.mac pa, MacroRec.mac pc] ∧
    (∀ i, i < recLen (MacroRec.mac pa) → M (ms + i) = m (ms + i)) ∧
    (∀ i, i < recLen (MacroRec.mac pc) →
      M (ms + recLen (MacroRec.mac pa) + i) =
        m (ms + recLen (MacroRec.mac pa) + recLen (MacroRec.del pb) + i)) ∧
    M (ms + recLen (MacroRec.mac pa) + recLen (MacroRec.mac pc))
      = TYPE_END := by
  obtain ⟨lf, rfl⟩ : ∃ lf, lfuel = lf + 1 + 1 := ⟨lfuel - 2, by omega⟩
  generalize hgen : ms + recsLen [MacroRec.mac pa, MacroRec.del pb,
    MacroRec.mac pc, MacroRec.del pd] + 1 = nem at hM
  have h2a := recLen_ge2 (MacroRec.mac pa)
  have h2b := recLen_ge2 (MacroRec.del pb)
  have h2c := recLen_ge2 (MacroRec.mac pc)
  have h2d := recLen_ge2 (MacroRec.del pd)
  have hr0 : recsLen ([] : List MacroRec) = 0 := rfl
  have hnemE : nem = ms + recLen (MacroRec.mac pa) + recLen (MacroRec.del pb)
      + recLen (MacroRec.mac pc) + recLen (MacroRec.del pd) + 1 := by
    rw [← hgen]
    simp only [recsLen_cons, hr0]
    omega
  obtain ⟨htagA, hlenA, hpayA, hbA, hwfB⟩ := WFarea_cons hwf
  obtain ⟨htagB, hlenB, hpayB, hbB, hwfC⟩ := WFarea_cons hwfB
  obtain ⟨htagC, hlenC, hpayC, hbC, hwfD⟩ := WFarea_cons hwfC
  obtain ⟨htagD, hlenD, hpayD, hbD, hwfE⟩ := WFarea_cons hwfD
  have hEarea := WFarea_nil hwfE
  have hfd0 : find_next_deleted m sfuel ms
      = ms + recLen (MacroRec.mac pa) := by
    rw [find_next_deleted_spec m [MacroRec.mac pa, MacroRec.del pb,
      MacroRec.mac pc, MacroRec.del pd] ms sfuel hwf
      (by simp only [List.length_cons, List.length_nil]; omega)]
    rw [show firstDeletedOff [MacroRec.mac pa, MacroRec.del pb,
        MacroRec.mac pc, MacroRec.del pd] = some (recLen (MacroRec.mac pa))
      from by simp [firstDeletedOff, recTag, TYPE_DELETED,
        TYPE_VALID_MACRO]]
  have hfnnB : find_next_nondeleted m sfuel (ms + recLen (MacroRec.mac pa))
      = ms + recLen (MacroRec.mac pa) + recLen (MacroRec.del pb) := by
    rw [find_next_nondeleted_spec m [MacroRec.del pb, MacroRec.mac pc,
      MacroRec.del pd] (ms + recLen (MacroRec.mac pa)) sfuel hwfB
      (by simp only [List.length_cons, List.length_nil]; omega)]
    rw [show firstNonDelOff [MacroRec.del pb, MacroRec.mac pc,
        MacroRec.del pd] = recLen (MacroRec.del pb)
      from by simp [firstNonDelOff, recTag, TYPE_DELETED, TYPE_VALID_MACRO,
        TYPE_CONTINUED]]
  have hfnnC : find_next_nondeleted m sfuel
      (ms + recLen (MacroRec.mac pa) + recLen (MacroRec.del pb))
      = ms + recLen (MacroRec.mac pa) + recLen (MacroRec.del pb) := by
    rw [find_next_nondeleted_spec m [MacroRec.mac pc, MacroRec.del pd]
      (ms + recLen (MacroRec.mac pa) + recLen (MacroRec.del pb)) sfuel hwfC
      (by simp only [List.length_cons, List.length_nil]; omega)]
    rw [show firstNonDelOff [MacroRec.mac pc, MacroRec.del pd] = 0
      from by simp [firstNonDelOff, recTag, TYPE_DELETED, TYPE_VALID_MACRO,
        TYPE_CONTINUED]]
    omega
  have hfdC : find_next_deleted m sfuel
      (ms + recLen (MacroRec.mac pa) + recLen (MacroRec.del pb))
      = ms + recLen (MacroRec.mac pa) + recLen (MacroRec.del pb)
        + recLen (MacroRec.mac pc) := by
    rw [find_next_deleted_spec m [MacroRec.mac pc, MacroRec.del pd]
      (ms + recLen (MacroRec.mac pa) + recLen (MacroRec.del pb)) sfuel hwfC
      (by simp only [List.length_cons, List.length_nil]; omega)]
    rw [show firstDeletedOff [MacroRec.mac pc, MacroRec.del pd]
        = some (recLen (MacroRec.mac pc))
      from by simp [firstDeletedOff, recTag, TYPE_DELETED,
        TYPE_VALID_MACRO]]
  have hfnnD : find_next_nondeleted m sfuel
      (ms + recLen (MacroRec.mac pa) + recLen (MacroRec.del pb)
        + recLen (MacroRec.mac pc))
      = ms + recLen (MacroRec.mac pa) + recLen (MacroRec.del pb)
        + recLen (MacroRec.mac pc) + recLen (MacroRec.del pd) := by
    rw [find_next_nondeleted_spec m [MacroRec.del pd]
      (ms + recLen (MacroRec.mac pa) + recLen (MacroRec.del pb)
        + recLen (MacroRec.mac pc)) sfuel hwfD
      (by simp only [List.length_cons, List.length_nil]; omega)]
    rw [show firstNonDelOff [MacroRec.del pd] = recLen (MacroRec.del pd)
      from by simp [firstNonDelOff, recTag, TYPE_DELETED, TYPE_CONTINUED]]
  have hfdE : find_next_deleted m sfuel
      (ms + recLen (MacroRec.mac pa) + recLen (MacroRec.del pb)
        + recLen (MacroRec.mac pc) + recLen (MacroRec.del pd)) = 0 := by
    rw [find_next_deleted_spec m []
      (ms + recLen (MacroRec.mac pa) + recLen (MacroRec.del pb)
        + recLen (MacroRec.mac pc) + recLen (MacroRec.del pd)) sfuel hwfE
      (by simp only [List.length_nil]; omega)]
    simp [firstDeletedOff]
  have hcc1 : copy_chunks nem (ms + recLen (MacroRec.mac pa) + 1)
      (ms + recLen (MacroRec.mac pa) + recLen (MacroRec.del pb) + 1)
      (ms + recLen (MacroRec.mac pa) + recLen (MacroRec.del pb)
        + recLen (MacroRec.mac pc))
      = ([Op.cp (ms + recLen (MacroRec.mac pa) + 1)
            (ms + recLen (MacroRec.mac pa) + recLen (MacroRec.del pb) + 1)
            (recLen (MacroRec.mac pc) - 1)],
         ms + recLen (MacroRec.mac pa) + recLen (MacroRec.mac pc)) := by
    rw [copy_chunks_one nem (ms + recLen (MacroRec.mac pa) + 1)
      (ms + recLen (MacroRec.mac pa) + recLen (MacroRec.del pb) + 1)
      (ms + recLen (MacroRec.mac pa) + recLen (MacroRec.del pb)
        + recLen (MacroRec.mac pc)) (by omega) (by omega) (by omega)]
    rw [show ms + recLen (MacroRec.mac pa) + recLen (MacroRec.del pb)
        + recLen (MacroRec.mac pc)
        - (ms + recLen (MacroRec.mac pa) + recLen (MacroRec.del pb) + 1)
        = recLen (MacroRec.mac pc) - 1 from by omega]
    rw [show ms + recLen (MacroRec.mac pa) + 1
        + (recLen (MacroRec.mac pc) - 1)
        = ms + recLen (MacroRec.mac pa) + recLen (MacroRec.mac pc)
      from by omega]
  have hOps : compress m ms nem sfuel (lf + 1 + 1) =
      [Op.wr (ms + recLen (MacroRec.mac pa)) TYPE_END,
       Op.cp (ms + recLen (MacroRec.mac pa) + 1)
         (ms + recLen (MacroRec.mac pa) + recLen (MacroRec.del pb) + 1)
         (recLen (MacroRec.mac pc) - 1),
       Op.wr (ms + recLen (MacroRec.mac pa) + recLen (MacroRec.mac pc))
         TYPE_END,
       Op.wr (ms + recLen (MacroRec.mac pa)) (recTag (MacroRec.mac pc)),
       Op.wr (ms + recLen (MacroRec.mac pa) + recLen (MacroRec.mac pc))
         TYPE_END] := by
    simp only [compress]
    rw [hfd0, if_neg (by omega), hfnnB]
    rw [compress_loop_eq m nem sfuel (lf + 1) (ms + recLen (MacroRec.mac pa))
      (ms + recLen (MacroRec.mac pa) + recLen (MacroRec.del pb)) (by omega)]
    rw [hfnnC, hfdC]
    rw [if_neg (show ¬(ms + recLen (MacroRec.mac pa)
      + recLen (MacroRec.del pb) + recLen (MacroRec.mac pc) = 0) by omega)]
    rw [hcc1]
    rw [if_pos (show ms + recLen (MacroRec.mac pa) + recLen (MacroRec.del pb)
      + recLen (MacroRec.mac pc) ≠ nem by omega)]
    dsimp only
    rw [compress_loop_eq m nem sfuel lf
      (ms + recLen (MacroRec.mac pa) + recLen (MacroRec.mac pc))
      (ms + recLen (MacroRec.mac pa) + recLen (MacroRec.del pb)
        + recLen (MacroRec.mac pc)) (by omega)]
    rw [hfnnD, hfdE]
    rw [if_pos (show (0 : Nat) = 0 from rfl)]
    rw [copy_chunks_zero (show nem - (ms + recLen (MacroRec.mac pa)
      + recLen (MacroRec.del pb) + recLen (MacroRec.mac pc)
      + recLen (MacroRec.del pd) + 1) = 0 by omega)]
    rw [if_neg (show ¬(nem ≠ nem) from fun h => h rfl)]
    rw [compress_loop_stop]
    rw [htagC, hEarea]
    rfl
  have hMv : ∀ x, M x =
      if x = ms + recLen (MacroRec.mac pa) + recLen (MacroRec.mac pc) then
        TYPE_END
      else if x = ms + recLen (MacroRec.mac pa) then recTag (MacroRec.mac pc)
      else if ms + recLen (MacroRec.mac pa) + 1 ≤ x ∧
          x < ms + recLen (MacroRec.mac pa) + recLen (MacroRec.mac pc) then
        m (x + recLen (MacroRec.del pb))
      else m x := by
    intro x
    rw [hM, hOps]
    simp only [applyOps, List.foldl, applyOp]
    split_ifs <;> first | rfl | omega | (congr 1; omega)
  have hA : ∀ i, i < recLen (MacroRec.mac pa) → M (ms + i) = m (ms + i) := by
    intro i hi
    rw [hMv, if_neg (by omega), if_neg (by omega), if_neg (by omega)]
  have hC : ∀ i, i < recLen (MacroRec.mac pc) →
      M (ms + recLen (MacroRec.mac pa) + i) =
        m (ms + recLen (MacroRec.mac pa) + recLen (MacroRec.del pb) + i) := by
    intro i hi
    rw [hMv]
    by_cases hi0 : i = 0
    · subst hi0
      rw [if_neg (by omega), if_pos (by omega)]
      simp only [Nat.add_zero]
      exact htagC.symm
    · rw [if_neg (by omega), if_neg (by omega), if_pos (by omega)]
      congr 1
      omega
  have hEnd : M (ms + recLen (MacroRec.mac pa) + recLen (MacroRec.mac pc))
      = TYPE_END := by
    rw [hMv, if_pos rfl]
  refine ⟨⟨?_, ?_⟩, hA, hC, hEnd⟩
  · rw [areaBytes_cons, areaBytes_cons,
      show areaBytes ([] : List MacroRec) = [TYPE_END] from rfl]
    rw [agrees_append, agrees_append, recBytes_length, recBytes_length]
    refine ⟨?_, ?_, ?_⟩
    · exact agrees_of_shift (agrees_recBytes htagA hlenA hpayA)
        (fun i hi => by rw [recBytes_length] at hi; exact hA i hi)
    · exact agrees_of_shift (agrees_recBytes htagC hlenC hpayC)
        (fun i hi => by rw [recBytes_length] at hi; exact hC i hi)
    · exact ⟨hEnd, trivial⟩
  · intro r hr
    simp only [List.mem_cons, List.not_mem_nil, or_false] at hr
    rcases hr with rfl | rfl
    · exact hbA
    · exact hbC

/-- Witness for C3 on the concrete area of the C2 witness: `A = ValidMacro
[10,11,12]`, `B = Deleted [20]`, `C = ValidMacro [30,31]`, `D = Deleted
[]`. -/
theorem c3_compress_preserves_witness :
    (WFarea
      (memL ([9, 9, 9, 9, 9] ++
        [1, 5, 10, 11, 12, 0, 3, 20, 1, 4, 30, 31, 0, 2, 255])) 5
      [MacroRec.mac [10, 11, 12], MacroRec.del [20], MacroRec.mac [30, 31],
        MacroRec.del []] ∧ 0 < 5 ∧ 5 ≤ 6) ∧
    (WFarea
      (applyOps
        (memL ([9, 9, 9, 9, 9] ++
          [1, 5, 10, 11, 12, 0, 3, 20, 1, 4, 30, 31, 0, 2, 255]))
        (compress
          (memL ([9, 9, 9, 9, 9] ++
            [1, 5, 10, 11, 12, 0, 3, 20, 1, 4, 30, 31, 0, 2, 255])) 5
          (5 + recsLen [MacroRec.mac [10, 11, 12], MacroRec.del [20],
            MacroRec.mac [30, 31], MacroRec.del []] + 1) 6 6)) 5
      [MacroRec.mac [10, 11, 12], MacroRec.mac [30, 31]] ∧
    (∀ i, i < recLen (MacroRec.mac [10, 11, 12]) →
      applyOps
        (memL ([9, 9, 9, 9, 9] ++
          [1, 5, 10, 11, 12, 0, 3, 20, 1, 4, 30, 31, 0, 2, 255]))
        (compress
          (memL ([9, 9, 9, 9, 9] ++
            [1, 5, 10, 11, 12, 0, 3, 20, 1, 4, 30, 31, 0, 2, 255])) 5
          (5 + recsLen [MacroRec.mac [10, 11, 12], MacroRec.del [20],
            MacroRec.mac [30, 31], MacroRec.del []] + 1) 6 6) (5 + i)
        = memL ([9, 9, 9, 9, 9] ++
            [1, 5, 10, 11, 12, 0, 3, 20, 1, 4, 30, 31, 0, 2, 255])
            (5 + i)) ∧
    (∀ i, i < recLen (MacroRec.mac [30, 31]) →
      applyOps
        (memL ([9, 9, 9, 9, 9] ++
          [1, 5, 10, 11, 12, 0, 3, 20, 1, 4, 30, 31, 0, 2, 255]))
        (compress
          (memL ([9, 9, 9, 9, 9] ++
            [1, 5, 10, 11, 12, 0, 3, 20, 1, 4, 30, 31, 0, 2, 255])) 5
          (5 + recsLen [MacroRec.mac [10, 11, 12], MacroRec.del [20],
            MacroRec.mac [30, 31], MacroRec.del []] + 1) 6 6)
        (5 + recLen (MacroRec.mac [10, 11, 12]) + i)
        = memL ([9, 9, 9, 9, 9] ++
            [1, 5, 10, 11, 12, 0, 3, 20, 1, 4, 30, 31, 0, 2, 255])
            (5 + recLen (MacroRec.mac [10, 11, 12])
              + recLen (MacroRec.del [20]) + i)) ∧
    applyOps
      (memL ([9, 9, 9, 9, 9] ++
        [1, 5, 10, 11, 12, 0, 3, 20, 1, 4, 30, 31, 0, 2, 255]))
      (compress
        (memL ([9, 9, 9, 9, 9] ++
          [1, 5, 10, 11, 12, 0, 3, 20, 1, 4, 30, 31, 0, 2, 255])) 5
        (5 + recsLen [MacroRec.mac [10, 11, 12], MacroRec.del [20],
          MacroRec.mac [30, 31], MacroRec.del []] + 1) 6 6)
      (5 + recLen (MacroRec.mac [10, 11, 12])
        + recLen (MacroRec.mac [30, 31])) = TYPE_END) :=
  ⟨⟨by decide, by decide, by decide⟩,
    c3_compress_preserves
      (memL ([9, 9, 9, 9, 9] ++
        [1, 5, 10, 11, 12, 0, 3, 20, 1, 4, 30, 31, 0, 2, 255])) 5
      [10, 11, 12] [20] [30, 31] [] 6 6 (by decide) (by decide) (by decide)
      (by decide) _ rfl⟩

/-! ## The cursor globals across `compress`, and the enqueue order of one
copy-loop iteration -/

/-- Every operation the inner copy loop enqueues is a block copy
(`eeprom__copy`), never a single-byte write. -/
theorem copy_chunks_all_cp : ∀ (F t1 c1 nxt : Nat),
    ∀ op ∈ (copy_chunks F t1 c1 nxt).1, ∃ d s l, op = Op.cp d s l := by
  intro F
  induction F with
  | zero => intro t1 c1 nxt op hop; simp [copy_chunks] at hop
  | succ F ih =>
    intro t1 c1 nxt op hop
    by_cases h0 : nxt - c1 = 0
    · simp [copy_chunks, h0] at hop
    · simp only [copy_chunks, if_neg h0, List.mem_cons] at hop
      rcases hop with rfl | hop
      · exact ⟨_, _, _, rfl⟩
      · exact ih _ _ _ op hop

/-- C9: the spec requires `compress()` to update the store's cursors
`end_macro` (end-record address) and `new_end_macro` (write frontier) to
the new `End` record address and frontier; the code (its update step is
still a `// TODO`) assigns neither global.  On the concrete area
`[Deleted [20], End]` at `ms = 5` with `end_macro = 8`, `new_end_macro =
9`, compaction moves the `End` record to address `5`, yet the returned
globals still hold `⟨8, 9⟩`, and the stale `end_macro = 8` is not the new
`End` address `5`. -/
theorem c9_compress_globals_stale :
    (compress_globals (memL ([9, 9, 9, 9, 9] ++ [0, 3, 20, 255])) 5 6 6
        ⟨8, 9⟩).1 = ⟨8, 9⟩ ∧
    applyOps (memL ([9, 9, 9, 9, 9] ++ [0, 3, 20, 255]))
      (compress_globals (memL ([9, 9, 9, 9, 9] ++ [0, 3, 20, 255])) 5 6 6
        ⟨8, 9⟩).2 5 = TYPE_END ∧
    (8 : Nat) ≠ 5 :=
  ⟨rfl, by decide, by decide⟩

/-- C10 counterexample: the spec says each span's tag byte is copied to
the write cursor first, then the body bytes; the code enqueues the body
copy first and the tag write last (the tag write is the commit point).
On the concrete area `[ValidMacro [10,11,12], Deleted [20], ValidMacro
[30,31], Deleted [], End]` at `ms = 5`, the queue is
`[wr 10 End, cp 11 14 3, wr 14 End, wr 10 ValidMacro, wr 14 End]`: the
span's body-chunk copy sits at index 1, its tag write at index 3 — the
copy precedes the tag write in enqueue order. -/
theorem c10_tag_order_counterexample :
    compress
      (memL ([9, 9, 9, 9, 9] ++
        [1, 5, 10, 11, 12, 0, 3, 20, 1, 4, 30, 31, 0, 2, 255])) 5 20 6 6 =
      [Op.wr 10 TYPE_END, Op.cp 11 14 3, Op.wr 14 TYPE_END,
        Op.wr 10 TYPE_VALID_MACRO, Op.wr 14 TYPE_END] ∧
    List.getD
      (compress
        (memL ([9, 9, 9, 9, 9] ++
          [1, 5, 10, 11, 12, 0, 3, 20, 1, 4, 30, 31, 0, 2, 255])) 5 20 6 6)
      1 (Op.wr 0 0) = Op.cp 11 14 3 ∧
    List.getD
      (compress
        (memL ([9, 9, 9, 9, 9] ++
          [1, 5, 10, 11, 12, 0, 3, 20, 1, 4, 30, 31, 0, 2, 255])) 5 20 6 6)
      3 (Op.wr 0 0) = Op.wr 10 TYPE_VALID_MACRO ∧
    (1 : Nat) < 3 := by
  refine ⟨by decide, by decide, by decide, by decide⟩

/-- C10 (amended): in each iteration of `compress`'s copy loop the
enqueue order is the reverse of the claim's: first the span's body bytes
are copied in chunks no larger than 255 bytes, then possibly a per-span
`End` write, and only then is the span's tag byte written at the write
cursor — the tag write for a span follows, not precedes, that span's
body-chunk copies. -/
theorem c10_tag_write_follows_body (m : Mem) (nem sfuel lf t_o next : Nat)
    (h : next ≠ nem) :
    ∃ cops mid ty rest,
      compress_loop m nem sfuel (lf + 1) t_o next =
        cops ++ mid ++ [Op.wr t_o ty] ++ rest ∧
      (∀ op ∈ cops, ∃ d s l, op = Op.cp d s l) ∧
      ty = m (find_next_nondeleted m sfuel next) ∧
      (mid = [] ∨ ∃ a, mid = [Op.wr a TYPE_END]) := by
  rw [compress_loop_eq m nem sfuel lf t_o next h]
  generalize find_next_nondeleted m sfuel next = tc
  generalize find_next_deleted m sfuel tc = d
  generalize (if d = 0 then nem else d) = nx
  generalize hg : copy_chunks nem (t_o + 1) (tc + 1) nx = cc
  refine ⟨cc.1, if nx ≠ nem then [Op.wr cc.2 TYPE_END] else [], m tc,
    compress_loop m nem sfuel lf cc.2 nx,
    by simp only [List.append_assoc], ?_, rfl, ?_⟩
  · intro op hop
    rw [← hg] at hop
    exact copy_chunks_all_cp _ _ _ _ op hop
  · by_cases hq : nx ≠ nem
    · rw [if_pos hq]
      exact Or.inr ⟨_, rfl⟩
    · rw [if_neg hq]
      exact Or.inl rfl

/-- Witness for the amended C10 on the concrete area of the
counterexample, at the first loop iteration (`to_overwrite = 10`,
`next = 13`). -/
theorem c10_tag_write_follows_body_witness :
    (13 : Nat) ≠ 20 ∧
    (∃ cops mid ty rest,
      compress_loop
        (memL ([9, 9, 9, 9, 9] ++
          [1, 5, 10, 11, 12, 0, 3, 20, 1, 4, 30, 31, 0, 2, 255])) 20 6
        (5 + 1) 10 13 = cops ++ mid ++ [Op.wr 10 ty] ++ rest ∧
      (∀ op ∈ cops, ∃ d s l, op = Op.cp d s l) ∧
      ty = memL ([9, 9, 9, 9, 9] ++
          [1, 5, 10, 11, 12, 0, 3, 20, 1, 4, 30, 31, 0, 2, 255])
        (find_next_nondeleted
          (memL ([9, 9, 9, 9, 9] ++
            [1, 5, 10, 11, 12, 0, 3, 20, 1, 4, 30, 31, 0, 2, 255])) 6 13) ∧
      (mid = [] ∨ ∃ a, mid = [Op.wr a TYPE_END])) :=
  ⟨by decide,
    c10_tag_write_follows_body
      (memL ([9, 9, 9, 9, 9] ++
        [1, 5, 10, 11, 12, 0, 3, 20, 1, 4, 30, 31, 0, 2, 255])) 20 6 5 10 13
      (by decide)⟩

end EepromMacro
